import Mathlib

/-!
# Verification of the ITensor MPS visitor (tnqvm)

A shallow embedding of `ITensorMPSVisitor.cpp`: the MPS state-evolution
engine that applies quantum-circuit gates to a matrix-product state,
performs projective measurement with wavefunction collapse, and evaluates
Z-basis expectation values over a snapshot of the state.

Modelling conventions:

* Scalars are exact elements of `ℚ(√2, i)` (`R2` is `ℚ(√2)`, `Kc` adds the
  imaginary unit), so every gate matrix appearing in the embedded circuits
  (Hadamard, X, Y, Z, CNOT, SWAP, measurement projectors) is represented
  exactly; C++ `double` arithmetic is idealised as exact arithmetic.
* A leg tensor of site `i` (`legMats[i]`, a rank-3 ITensor with a physical
  index of dimension 2 and two bond indices) is a family of `D × D`
  matrices indexed by the physical basis (`Leg D`); a bond tensor is one
  `D × D` matrix.  All bond indices are padded to a common dimension `D`;
  the dimension-1 boundary indices (`head` / `tail`) of the chain live at
  coordinate 0 of the padded dimension.
* `std::vector` indexing (unchecked `operator[]`, undefined behaviour when
  out of range) is modelled by `Except`-valued lookups that return
  `EngineError.indexOutOfBounds` exactly when the C++ access would be out
  of range; `xacc::error` (a fatal error that aborts the evaluation) is an
  `Except.error` as well.
* The external itensor truncated-SVD primitive cannot be computed inside
  `ℚ(√2, i)` (singular values are irrational); two-qubit gate application
  is therefore a *relation* (`coreRel`): any decomposition whose
  recontraction reproduces the merged tensor is admitted.  This models the
  SVD exactly and neglects cutoff truncation, which is the regime all the
  tolerance-qualified claims address.
* `std::rand()` output is an explicit `ℕ` argument of the Measure visit
  (the injectable random source of the specification).
-/

namespace TnqvmMPS

/-! ## The scalar ring `ℚ(√2)` and `ℚ(√2, i)` -/

/-- An element `a + b·√2` of `ℚ(√2)`, the real quadratic field generated by
`√2`.  This is the exact home of every real number appearing in the gate
matrices of the visitor (`0.5*sqrt(2)` in the Hadamard visit, `±1`, `0`). -/
structure R2 where
  a : ℚ
  b : ℚ
deriving DecidableEq

namespace R2

def zero : R2 := ⟨0, 0⟩
def one : R2 := ⟨1, 0⟩
def ofRat (q : ℚ) : R2 := ⟨q, 0⟩
def add (x y : R2) : R2 := ⟨x.a + y.a, x.b + y.b⟩
def neg (x : R2) : R2 := ⟨-x.a, -x.b⟩
def mul (x y : R2) : R2 := ⟨x.a * y.a + 2 * (x.b * y.b), x.a * y.b + x.b * y.a⟩
/-- `√2` itself. -/
def sqrt2 : R2 := ⟨0, 1⟩

instance : Zero R2 := ⟨zero⟩
instance : One R2 := ⟨one⟩
instance : Add R2 := ⟨add⟩
instance : Neg R2 := ⟨neg⟩
instance : Mul R2 := ⟨mul⟩

theorem zero_def : (0 : R2) = ⟨0, 0⟩ := rfl
theorem one_def : (1 : R2) = ⟨1, 0⟩ := rfl
theorem add_def (x y : R2) : x + y = ⟨x.a + y.a, x.b + y.b⟩ := rfl
theorem neg_def (x : R2) : -x = ⟨-x.a, -x.b⟩ := rfl
theorem mul_def (x y : R2) :
    x * y = ⟨x.a * y.a + 2 * (x.b * y.b), x.a * y.b + x.b * y.a⟩ := rfl

instance : CommRing R2 where
  add_assoc x y z := by simp [add_def]; constructor <;> ring
  zero_add x := by simp [add_def, zero_def]
  add_zero x := by simp [add_def, zero_def]
  add_comm x y := by simp [add_def]; constructor <;> ring
  neg_add_cancel x := by simp [add_def, neg_def, zero_def]
  mul_assoc x y z := by simp [mul_def]; constructor <;> ring
  one_mul x := by simp [mul_def, one_def]
  mul_one x := by simp [mul_def, one_def]
  left_distrib x y z := by simp [mul_def, add_def]; constructor <;> ring
  right_distrib x y z := by simp [mul_def, add_def]; constructor <;> ring
  mul_comm x y := by simp [mul_def]; constructor <;> ring
  zero_mul x := by simp [mul_def, zero_def]
  mul_zero x := by simp [mul_def, zero_def]
  nsmul := nsmulRec
  zsmul := zsmulRec

/-- Multiplicative inverse: `(a + b√2)⁻¹ = (a - b√2) / (a² - 2b²)`
(total, with `x⁻¹ = 0` at `0`, mirroring field-division-by-zero
conventions; the C++ code only divides by nonzero norms). -/
def inv (x : R2) : R2 :=
  let n : ℚ := x.a ^ 2 - 2 * x.b ^ 2
  ⟨x.a / n, -x.b / n⟩

/-- Division on `ℚ(√2)`, the model of C++ `double` division in
`average(...) / wavefunc_inner()`. -/
def div (x y : R2) : R2 := x * inv y

/-- Strict positivity of `a + b·√2`, decided by rational arithmetic. -/
def posB (x : R2) : Bool :=
  if x.b = 0 then decide (0 < x.a)
  else if 0 < x.b then decide (0 ≤ x.a) || decide (x.a ^ 2 < 2 * x.b ^ 2)
  else decide (0 < x.a) && decide (2 * x.b ^ 2 < x.a ^ 2)

/-- Strict order on `ℚ(√2)`: the model of `<` on C++ doubles. -/
def ltB (x y : R2) : Bool := posB (y + neg x)

def lt (x y : R2) : Prop := ltB x y = true

instance (x y : R2) : Decidable (lt x y) := Bool.decEq (ltB x y) true

/-- Nonnegativity. -/
def nonneg (x : R2) : Prop := x = 0 ∨ lt 0 x

instance (x : R2) : Decidable (nonneg x) :=
  inferInstanceAs (Decidable (x = 0 ∨ lt 0 x))

/-- The real number denoted by an `R2` element. -/
noncomputable def toReal (x : R2) : ℝ := (x.a : ℝ) + (x.b : ℝ) * Real.sqrt 2

end R2

/-- An element `x + y·i` of `ℚ(√2, i)`: the exact complex scalars of the
embedded tensors. -/
structure Kc where
  re : R2
  im : R2
deriving DecidableEq

namespace Kc

def zero : Kc := ⟨0, 0⟩
def one : Kc := ⟨1, 0⟩
def ofR2 (r : R2) : Kc := ⟨r, 0⟩
/-- The imaginary unit. -/
def iu : Kc := ⟨0, 1⟩
def add (x y : Kc) : Kc := ⟨x.re + y.re, x.im + y.im⟩
def neg (x : Kc) : Kc := ⟨-x.re, -x.im⟩
def mul (x y : Kc) : Kc :=
  ⟨x.re * y.re - x.im * y.im, x.re * y.im + x.im * y.re⟩
/-- Complex conjugation (the model of `itensor::conj`). -/
def conj (x : Kc) : Kc := ⟨x.re, -x.im⟩

instance : Zero Kc := ⟨zero⟩
instance : One Kc := ⟨one⟩
instance : Add Kc := ⟨add⟩
instance : Neg Kc := ⟨neg⟩
instance : Mul Kc := ⟨mul⟩

theorem zero_defK : (0 : Kc) = ⟨0, 0⟩ := rfl
theorem one_defK : (1 : Kc) = ⟨1, 0⟩ := rfl
theorem add_defK (x y : Kc) : x + y = ⟨x.re + y.re, x.im + y.im⟩ := rfl
theorem neg_defK (x : Kc) : -x = ⟨-x.re, -x.im⟩ := rfl
theorem mul_defK (x y : Kc) :
    x * y = ⟨x.re * y.re - x.im * y.im, x.re * y.im + x.im * y.re⟩ := rfl

instance : CommRing Kc where
  add_assoc x y z := by simp [add_defK]; constructor <;> ring
  zero_add x := by simp [add_defK, zero_defK]
  add_zero x := by simp [add_defK, zero_defK]
  add_comm x y := by simp [add_defK]; constructor <;> ring
  neg_add_cancel x := by simp [add_defK, neg_defK, zero_defK]
  mul_assoc x y z := by simp [mul_defK]; constructor <;> ring
  one_mul x := by simp [mul_defK, one_defK]
  mul_one x := by simp [mul_defK, one_defK]
  left_distrib x y z := by simp [mul_defK, add_defK]; constructor <;> ring
  right_distrib x y z := by simp [mul_defK, add_defK]; constructor <;> ring
  mul_comm x y := by simp [mul_defK]; constructor <;> ring
  zero_mul x := by simp [mul_defK, zero_defK]
  mul_zero x := by simp [mul_defK, zero_defK]
  nsmul := nsmulRec
  zsmul := zsmulRec

/-- `|x|²`, a real (hence `R2`) value: `x * conj x` has zero imaginary
part. -/
def normSq (x : Kc) : R2 := x.re * x.re + x.im * x.im

/-- The value `½·√2 = 1/√2`: the Hadamard amplitude `0.5*sqrt(2)` of the
source, represented exactly. -/
def halfSqrt2 : Kc := ⟨⟨0, 1/2⟩, 0⟩

/-- Division of a complex scalar by a real (`R2`) scalar, componentwise
(used for the normalisation `mps / itensor::norm(mps)` in `getState`). -/
def divR (x : Kc) (r : R2) : Kc := ⟨R2.div x.re r, R2.div x.im r⟩

end Kc

/-! ## Tensors

A leg tensor (rank 3: physical index of dimension 2, left bond, right
bond) is a family of two `D × D` matrices; a bond tensor is a single
`D × D` matrix.  All bond indices are padded to a common dimension `D`;
dimension-1 boundary indices sit at coordinate 0. -/

/-- A bond-indexed matrix slice of a tensor. -/
abbrev Mat (D : ℕ) := Matrix (Fin D) (Fin D) Kc

/-- A leg tensor: the two physical-basis slices `A₀, A₁`, each a matrix
from the left bond index to the right bond index. -/
abbrev Leg (D : ℕ) := Fin 2 → Mat D

/-- A 2×2 gate (or projector) matrix, indexed `(output, input)` in the
`{|0⟩, |1⟩}` basis: the data written by `tGate.set(ind_out(..), ind_in(..), v)`. -/
abbrev G2 := Fin 2 → Fin 2 → Kc

/-- The matrix selecting coordinate `(0,0)`: contraction through a
dimension-1 boundary index (`head` / `tail`) of the chain. -/
def E00 {D : ℕ} : Mat D := Matrix.of fun i j => if i.val = 0 ∧ j.val = 0 then 1 else 0

/-- Conjugate transpose: the effect of `itensor::conj` on a slice read
against the transposed bond orientation in the inner-product sweep. -/
def dagT {D : ℕ} (A : Mat D) : Mat D := Matrix.transpose (A.map Kc.conj)

/-- Entry `(0,0)` of a matrix — the scalar left once both dimension-1
boundary indices have been contracted. -/
def entry00 {D : ℕ} (M : Mat D) : Kc :=
  if h : 0 < D then M ⟨0, h⟩ ⟨0, h⟩ else 0

/-- Contraction of a 2×2 gate tensor against a leg tensor over the
physical index: `tGate * legMats[iqbit]` followed by un-priming, as in
every single-qubit `visit`.  The new physical slice `s` is
`Σ_t G(s,t) · A_t`. -/
def applyGate1 {D : ℕ} (G : G2) (A : Leg D) : Leg D :=
  fun s => ∑ t : Fin 2, G s t • A t

/-- Hadamard gate data from `visit(Hadamard&)`: all four entries are
`0.5*sqrt(2)` except `(1,1)`, which is negated. -/
def gateH : G2 := fun o i => if o = 1 ∧ i = 1 then -Kc.halfSqrt2 else Kc.halfSqrt2

/-- Pauli-X data from `visit(X&)`: `set(out(1), in(2), 1)`, `set(out(2), in(1), 1)`. -/
def gateX : G2 := fun o i => if o ≠ i then 1 else 0

/-- Pauli-Y data from `visit(Y&)`: `set(out(1), in(2), -i)`, `set(out(2), in(1), i)`. -/
def gateY : G2 := fun o i =>
  if o = 0 ∧ i = 1 then -Kc.iu else if o = 1 ∧ i = 0 then Kc.iu else 0

/-- Pauli-Z data from `visit(Z&)` and also `tZ_measure_on`:
diagonal `(1, -1)`. -/
def gateZ : G2 := fun o i => if o = i then (if o = 0 then 1 else -1) else 0

/-- The `|0⟩` projector `tMeasure0`: `set(p(1), m(1), 1)` only. -/
def proj0 : G2 := fun o i => if o = 0 ∧ i = 0 then 1 else 0

/-- The `|1⟩` projector `tMeasure1`: `set(p(2), m(2), 1)` only. -/
def proj1 : G2 := fun o i => if o = 1 ∧ i = 1 then 1 else 0

/-! ## The visitor state -/

/-- Failure modes of the embedded engine.  `indexOutOfBounds` models an
out-of-range `std::vector::operator[]` (undefined behaviour in C++);
`czUnsupported` / `cphaseUnimplemented` model the two `xacc::error` calls;
`assertionFailed` models the `assert(aver.imag() < 1e-10)` in `averZs`
(active in a debug build); `expInfoMissing` models
`mpark::get<double>(buffer->getInformation("exp-val-z"))` when no Measure
has stored the datum. -/
inductive EngineError
  | indexOutOfBounds
  | czUnsupported
  | cphaseUnimplemented
  | assertionFailed
  | expInfoMissing
deriving DecidableEq

deriving instance DecidableEq for Except

/-- Bounds-checked list access at a (possibly negative) C++ `int` index. -/
def getI {α : Type _} (l : List α) (i : ℤ) : Except EngineError α :=
  if h : 0 ≤ i ∧ i.toNat < l.length then .ok (l.get ⟨i.toNat, h.2⟩)
  else .error .indexOutOfBounds

/-- The mutable state of `ITensorMPSVisitor`: the canonical chain
(`legMats` / `bondMats`), the snapshot copies (`legMats_m` /
`bondMats_m`), the classical bits, the measured-qubit set, the snapshot
flag, the elapsed-time accumulator, the configured gate durations and SVD
cutoff, and the `exp-val-z` datum stored on the accelerator buffer. -/
structure MPSState (D : ℕ) where
  n_qbits : ℕ
  legMats : List (Leg D)
  bondMats : List (Mat D)
  legMats_m : List (Leg D)
  bondMats_m : List (Mat D)
  cbits : List ℕ
  iqbits_m : List ℕ
  snapped : Bool
  execTime : ℚ
  singleQubitTime : ℚ
  twoQubitTime : ℚ
  svdCutoff : ℚ
  expValZ : Option R2
deriving DecidableEq

/-- The site tensor built by `initWavefunc`: `legMat.set(qbit(1),
prev_rbond(1), lbond(1), 1.)` — slice 0 is the `(0,0)` unit matrix, slice
1 is zero. -/
def leg0 {D : ℕ} : Leg D := fun s => if s = 0 then E00 else 0

/-- The visitor state right after `initialize` + `initWavefunc n`: the
product state `|0…0⟩` as `n` identical leg tensors and `n-1` unit bond
tensors, cleared classical bits, no snapshot, zero elapsed time, and the
configured timings/cutoff. -/
def initState (D n : ℕ) (t1 t2 cut : ℚ) : MPSState D :=
  { n_qbits := n
    legMats := List.replicate n leg0
    bondMats := List.replicate (n - 1) E00
    legMats_m := []
    bondMats_m := []
    cbits := List.replicate n 0
    iqbits_m := []
    snapped := false
    execTime := 0
    singleQubitTime := t1
    twoQubitTime := t2
    svdCutoff := cut
    expValZ := none }

/-- Well-formedness: the chain-shape invariant `len(legMats) = n`,
`len(bondMats) = n - 1`. -/
def WFChain {D : ℕ} (n : ℕ) (s : MPSState D) : Prop :=
  s.n_qbits = n ∧ s.legMats.length = n ∧ s.bondMats.length = n - 1

/-! ## The contraction sweeps

`wavefunc_inner`, `average` and `averZs` walk the chain left to right,
keeping an accumulator matrix whose row index is the open bra-side bond
and whose column index is the open ket-side bond.  At site `i` the bra
side absorbs `conj(legMats[i] * bondMats[i])` and the ket side
`bondMats[i-1] * legMats[i]`; when an operator is inserted at the site
the primed/unprimed pairing of `tZ_measure_on` / `tMeasure0` weights the
four slice pairs by the operator entries. -/

/-- First sweep step (site 0), no operator:
`conj(legMats[0] * bondMats[0]) * legMats[0]`. -/
def startAccPlain {D : ℕ} (A : Leg D) (B : Mat D) : Mat D :=
  ∑ s : Fin 2, dagT (A s * B) * E00 * A s

/-- First sweep step (site 0) with a 2×2 operator inserted:
`conj(legMats[0] * bondMats[0]) * op`, unprimed, times `legMats[0]`. -/
def startAccOp {D : ℕ} (op : G2) (A : Leg D) (B : Mat D) : Mat D :=
  ∑ a : Fin 2, ∑ b : Fin 2, op a b • (dagT (A b * B) * E00 * A a)

/-- Interior sweep step, no operator:
`inner * conj(legMats[i] * bondMats[i]) * bondMats[i-1] * legMats[i]`. -/
def midPlain {D : ℕ} (A : Leg D) (Bi Bprev acc : Mat D) : Mat D :=
  ∑ s : Fin 2, dagT (A s * Bi) * acc * (Bprev * A s)

/-- Interior sweep step with a 2×2 operator inserted at the site. -/
def midOp {D : ℕ} (op : G2) (A : Leg D) (Bi Bprev acc : Mat D) : Mat D :=
  ∑ a : Fin 2, ∑ b : Fin 2, op a b • (dagT (A b * Bi) * acc * (Bprev * A a))

/-- Last sweep step (site `n-1`), no operator, contracted down to the
scalar through the `tail` boundary:
`inner * conj(legMats[n-1]) * bondMats[n-2] * legMats[n-1]`. -/
def finPlain {D : ℕ} (A : Leg D) (Bprev acc : Mat D) : Kc :=
  entry00 (∑ s : Fin 2, dagT (A s) * acc * (Bprev * A s))

/-- Last sweep step with a 2×2 operator inserted at site `n-1`. -/
def finOp {D : ℕ} (op : G2) (A : Leg D) (Bprev acc : Mat D) : Kc :=
  entry00 (∑ a : Fin 2, ∑ b : Fin 2, op a b • (dagT (A b) * acc * (Bprev * A a)))

/-- The `for (int i = 1; i < n_qbits - 1; ++i)` accumulation loop. -/
def sweepLoop {D : ℕ} (step : ℕ → Mat D → Except EngineError (Mat D)) :
    List ℕ → Mat D → Except EngineError (Mat D)
  | [], acc => .ok acc
  | i :: is, acc => step i acc >>= sweepLoop step is

/-- `wavefunc_inner`: the squared norm `⟨ψ|ψ⟩` of the canonical chain,
returned as its real part (the `try { inner.real() } catch { warn;
std::real(inner.cplx()) }` of the source takes the real component on
either path). -/
def wavefunc_inner {D : ℕ} (s : MPSState D) : Except EngineError R2 := do
  let A0 ← getI s.legMats 0
  let B0 ← getI s.bondMats 0
  let acc ← sweepLoop (fun i acc => do
      let Ai ← getI s.legMats (i : ℤ)
      let Bi ← getI s.bondMats (i : ℤ)
      let Bp ← getI s.bondMats ((i : ℤ) - 1)
      pure (midPlain Ai Bi Bp acc))
    (List.range' 1 (s.n_qbits - 2)) (startAccPlain A0 B0)
  let An ← getI s.legMats ((s.n_qbits : ℤ) - 1)
  let Bn ← getI s.bondMats ((s.n_qbits : ℤ) - 2)
  pure (finPlain An Bn acc).re

/-- `average(iqbit, op_tensor)`: the sweep with `op_tensor` inserted at
site `iqbit` of the canonical chain, returning
`inner.cplx().real()`. -/
def average {D : ℕ} (iqbit : ℕ) (op : G2) (s : MPSState D) :
    Except EngineError R2 := do
  let A0 ← getI s.legMats 0
  let B0 ← getI s.bondMats 0
  let acc0 := if iqbit = 0 then startAccOp op A0 B0 else startAccPlain A0 B0
  let acc ← sweepLoop (fun i acc => do
      let Ai ← getI s.legMats (i : ℤ)
      let Bi ← getI s.bondMats (i : ℤ)
      let Bp ← getI s.bondMats ((i : ℤ) - 1)
      pure (if i = iqbit then midOp op Ai Bi Bp acc else midPlain Ai Bi Bp acc))
    (List.range' 1 (s.n_qbits - 2)) acc0
  let An ← getI s.legMats ((s.n_qbits : ℤ) - 1)
  let Bn ← getI s.bondMats ((s.n_qbits : ℤ) - 2)
  if (iqbit : ℤ) = (s.n_qbits : ℤ) - 1 then pure (finOp op An Bn acc).re
  else pure (finPlain An Bn acc).re

/-- The assert tolerance `1e-10` of `averZs`. -/
def imagTol : R2 := R2.ofRat (1 / 10000000000)

/-- `averZs(iqbits)`: the joint Z expectation sweep over the *snapshot*
chain (`legMats_m` / `bondMats_m`), with `tZ_measure_on i` inserted at
every `i` in the measured set; `assert(aver.imag() < 1e-10)` (a
debug-build abort) guards the return of the real part. -/
def averZs {D : ℕ} (iqbits : List ℕ) (s : MPSState D) :
    Except EngineError R2 := do
  let A0 ← getI s.legMats_m 0
  let B0 ← getI s.bondMats_m 0
  let acc0 := if iqbits.contains 0 then startAccOp gateZ A0 B0 else startAccPlain A0 B0
  let acc ← sweepLoop (fun i acc => do
      let Ai ← getI s.legMats_m (i : ℤ)
      let Bi ← getI s.bondMats_m (i : ℤ)
      let Bp ← getI s.bondMats_m ((i : ℤ) - 1)
      pure (if iqbits.contains i then midOp gateZ Ai Bi Bp acc
            else midPlain Ai Bi Bp acc))
    (List.range' 1 (s.n_qbits - 2)) acc0
  let An ← getI s.legMats_m ((s.n_qbits : ℤ) - 1)
  let Bn ← getI s.bondMats_m ((s.n_qbits : ℤ) - 2)
  let last : ℤ := (s.n_qbits : ℤ) - 1
  let aver := if 0 ≤ last ∧ iqbits.contains last.toNat
              then finOp gateZ An Bn acc else finPlain An Bn acc
  if R2.ltB aver.im imagTol then pure aver.re else .error .assertionFailed

/-! ## Single-qubit visits, measurement, and the unimplemented gates -/

/-- The common shape of every single-qubit `visit` (Hadamard, X, Y, Z —
the rotation visits Rx/Ry/Rz/U have exactly the same shape with
transcendental entries that lie outside the `ℚ(√2, i)` scalar model):
contract the gate tensor against the qubit's leg tensor and add the
configured single-qubit gate duration to the elapsed time. -/
def visit1Q {D : ℕ} (G : G2) (q : ℕ) (s : MPSState D) :
    Except EngineError (MPSState D) := do
  let A ← getI s.legMats (q : ℤ)
  pure { s with legMats := s.legMats.set q (applyGate1 G A),
                execTime := s.execTime + s.singleQubitTime }

/-- `visit(Hadamard&)`. -/
def visit_Hadamard {D : ℕ} (q : ℕ) (s : MPSState D) := visit1Q gateH q s

/-- `visit(X&)`. -/
def visit_X {D : ℕ} (q : ℕ) (s : MPSState D) := visit1Q gateX q s

/-- `visit(Y&)`. -/
def visit_Y {D : ℕ} (q : ℕ) (s : MPSState D) := visit1Q gateY q s

/-- `visit(Z&)`. -/
def visit_Z {D : ℕ} (q : ℕ) (s : MPSState D) := visit1Q gateZ q s

/-- `visit(CZ&)`: `xacc::error("CZ not supported yet.")` — a fatal error,
no state is produced. -/
def visit_CZ {D : ℕ} (_q0 _q1 : ℕ) (_s : MPSState D) :
    Except EngineError (MPSState D) := .error .czUnsupported

/-- `visit(CPhase&)`: `xacc::error("ITensorMPS Visitor CPhase visit
unimplemented.")` — a fatal error, no state is produced. -/
def visit_CPhase {D : ℕ} (_q0 _q1 : ℕ) (_s : MPSState D) :
    Except EngineError (MPSState D) := .error .cphaseUnimplemented

/-- `snap_wavefunc`: copy the canonical chain into the snapshot buffers,
once per round. -/
def snap_wavefunc {D : ℕ} (s : MPSState D) : MPSState D :=
  if s.snapped then s
  else { s with legMats_m := s.legMats, bondMats_m := s.bondMats, snapped := true }

/-- `std::set<int>::insert`. -/
def insertSet (q : ℕ) (l : List ℕ) : List ℕ := if l.contains q then l else q :: l

/-- The uniform draw `rv = (std::rand() % 1000000) / 1000000.` from a raw
`std::rand()` output. -/
def measureRv (randOut : ℕ) : ℚ := ((randOut % 1000000 : ℕ) : ℚ) / 1000000

/-- `visit(Measure&)`: snapshot if needed, extend the measured set,
store the running Z expectation (over the snapshot chain) on the buffer,
compute `p0 = average(q, tMeasure0) / wavefunc_inner()` over the
*canonical* chain, draw `rv = (std::rand() % 1000000) / 1000000.` from the
supplied random output, collapse the canonical leg tensor of `q` with the
`|0⟩` or `|1⟩` projector accordingly, set the classical bit, and add the
two-qubit gate duration to the elapsed time. -/
def visit_Measure {D : ℕ} (randOut : ℕ) (q : ℕ) (s : MPSState D) :
    Except EngineError (MPSState D) := do
  let s0 := snap_wavefunc s
  let s1 := { s0 with iqbits_m := insertSet q s0.iqbits_m }
  let expVal ← averZs s1.iqbits_m s1
  let s2 := { s1 with expValZ := some expVal }
  let av ← average q proj0 s2
  let inn ← wavefunc_inner s2
  let p0 := R2.div av inn
  let rv : ℚ := measureRv randOut
  let A ← getI s2.legMats (q : ℤ)
  if R2.lt (R2.ofRat rv) p0 then
    pure { s2 with cbits := s2.cbits.set q 0,
                   legMats := s2.legMats.set q (applyGate1 proj0 A),
                   execTime := s2.execTime + s2.twoQubitTime }
  else
    pure { s2 with cbits := s2.cbits.set q 1,
                   legMats := s2.legMats.set q (applyGate1 proj1 A),
                   execTime := s2.execTime + s2.twoQubitTime }

/-! ## Adjacent two-qubit gate application

`visit(CNOT&)` and `visit(Swap&)` contract the 4-index gate tensor with
the two leg tensors and the bond tensor between them, decompose the
merged tensor by truncated SVD cut between the lower site's kept axes and
the higher site's axes, and install the `(leg, bond, rest)` triple.  The
external SVD is modelled relationally: `coreRel` admits any triple whose
recontraction is the merged tensor (exact SVD, truncation neglected). -/

/-- A 4-index two-qubit gate tensor, indexed
`(out0, out1, in0, in1)` as written by the `tGate.set` calls. -/
abbrev G4 := Fin 2 → Fin 2 → Fin 2 → Fin 2 → Kc

/-- The CNOT gate data of `visit(CNOT&)` (`in0` is the control):
entries 1 at `(1,1,1,1)`, `(1,2,1,2)`, `(2,1,2,2)`, `(2,2,2,1)`
(1-based). -/
def gateCNOT : G4 := fun o0 o1 i0 i1 =>
  if (o0 = 0 ∧ o1 = 0 ∧ i0 = 0 ∧ i1 = 0) ∨ (o0 = 0 ∧ o1 = 1 ∧ i0 = 0 ∧ i1 = 1) ∨
     (o0 = 1 ∧ o1 = 0 ∧ i0 = 1 ∧ i1 = 1) ∨ (o0 = 1 ∧ o1 = 1 ∧ i0 = 1 ∧ i1 = 0)
  then 1 else 0

/-- The SWAP gate data of `visit(Swap&)`: entries 1 at `(1,1,1,1)`,
`(1,2,2,1)`, `(2,1,1,2)`, `(2,2,2,2)` (1-based). -/
def gateSWAP : G4 := fun o0 o1 i0 i1 =>
  if (o0 = 0 ∧ o1 = 0 ∧ i0 = 0 ∧ i1 = 0) ∨ (o0 = 0 ∧ o1 = 1 ∧ i0 = 1 ∧ i1 = 0) ∨
     (o0 = 1 ∧ o1 = 0 ∧ i0 = 0 ∧ i1 = 1) ∨ (o0 = 1 ∧ o1 = 1 ∧ i0 = 1 ∧ i1 = 1)
  then 1 else 0

/-- The merged tensor
`tobe_svd = tGate * legMats[iqbit_in0] * bondMats[min] * legMats[iqbit_in1]`,
presented as a family of matrices from the lower site's left bond to the
higher site's right bond, indexed by the two output physical indices
`(s_low, s_high)`; `ind_lower` is `ind_out0` when `iqbit_in0` is the lower
site and `ind_out1` otherwise. -/
def mergedTensor {D : ℕ} (Graw : G4) (q0 q1 : ℕ) (s : MPSState D) :
    Except EngineError (Fin 2 → Fin 2 → Mat D) := do
  let Amin ← getI s.legMats (min q0 q1 : ℤ)
  let B ← getI s.bondMats (min q0 q1 : ℤ)
  let Amax ← getI s.legMats (max q0 q1 : ℤ)
  pure (fun sL sH =>
    if q0 ≤ q1 then
      ∑ i0 : Fin 2, ∑ i1 : Fin 2, Graw sL sH i0 i1 • (Amin i0 * B * Amax i1)
    else
      ∑ i0 : Fin 2, ∑ i1 : Fin 2, Graw sH sL i0 i1 • (Amin i1 * B * Amax i0))

/-- Install the SVD triple: `legMats[min] = legMat`,
`bondMats[min] = bondMat`, `legMats[max] = restTensor` (after the
kickback that restores leg-tensor rank). -/
def installCore {D : ℕ} (q0 q1 : ℕ) (L : Leg D) (Bd : Mat D) (Rg : Leg D)
    (s : MPSState D) : MPSState D :=
  { s with legMats := (s.legMats.set (min q0 q1) L).set (max q0 q1) Rg,
           bondMats := s.bondMats.set (min q0 q1) Bd }

/-- One adjacent two-qubit gate application on sites `q0`, `q1`:
some exact SVD triple `(L, Bd, Rg)` of the merged tensor is installed.
`L a * Bd * Rg b = M a b` is precisely "recontracting the decomposition
reproduces `tobe_svd`". -/
def coreRel {D : ℕ} (Graw : G4) (q0 q1 : ℕ) (s s' : MPSState D) : Prop :=
  ∃ M L Bd Rg, mergedTensor Graw q0 q1 s = .ok M ∧
    (∀ a b : Fin 2, L a * Bd * Rg b = M a b) ∧
    s' = installCore q0 q1 L Bd Rg s

/-- `permute_to(iqbit, iqbit_to)` with `delta = 1`: the chain of adjacent
SWAP visits `Swap(q, q+1)` for `q = iqbit, …, iqbit_to - 1`. -/
inductive PermUp {D : ℕ} : ℕ → ℕ → MPSState D → MPSState D → Prop
  | done (q : ℕ) (s : MPSState D) : PermUp q q s s
  | step {a b : ℕ} {s s₁ s₂ : MPSState D} :
      a < b → coreRel gateSWAP a (a + 1) s s₁ → PermUp (a + 1) b s₁ s₂ →
      PermUp a b s s₂

/-- `permute_to(iqbit, iqbit_to)` with `delta = -1`: the chain of adjacent
SWAP visits `Swap(q, q-1)` for `q = iqbit, …, iqbit_to + 1`. -/
inductive PermDown {D : ℕ} : ℕ → ℕ → MPSState D → MPSState D → Prop
  | done (q : ℕ) (s : MPSState D) : PermDown q q s s
  | step {a b : ℕ} {s s₁ s₂ : MPSState D} :
      b < a → coreRel gateSWAP a (a - 1) s s₁ → PermDown (a - 1) b s₁ s₂ →
      PermDown a b s s₂

/-- `visit(Swap&)`: if the two qubits are non-adjacent, chain adjacent
SWAPs to bring them together, apply the adjacent SWAP core, and undo the
chain in mirror order; an adjacent (or overlapping) pair goes straight to
the core.  No elapsed-time update occurs anywhere in this visit. -/
inductive SwapRel {D : ℕ} (i j : ℕ) : MPSState D → MPSState D → Prop
  | nonadjUp {s s₁ s₂ s₃ : MPSState D} :
      i + 1 < j → PermUp i (j - 1) s s₁ → coreRel gateSWAP (j - 1) j s₁ s₂ →
      PermDown (j - 1) i s₂ s₃ → SwapRel i j s s₃
  | nonadjDown {s s₁ s₂ s₃ : MPSState D} :
      j + 1 < i → PermUp j (i - 1) s s₁ → coreRel gateSWAP i (i - 1) s₁ s₂ →
      PermDown (i - 1) j s₂ s₃ → SwapRel i j s s₃
  | adj {s s' : MPSState D} :
      ¬ i + 1 < j → ¬ j + 1 < i → coreRel gateSWAP i j s s' → SwapRel i j s s'

/-- `execTime += twoQubitTime`. -/
def bump2 {D : ℕ} (s : MPSState D) : MPSState D :=
  { s with execTime := s.execTime + s.twoQubitTime }

/-- `visit(CNOT&)`: permute to adjacency if needed, apply the CNOT core
(`in0` = first operand = control), undo the permutation, and add the
two-qubit gate duration to the elapsed time. -/
inductive CNOTRel {D : ℕ} (i j : ℕ) : MPSState D → MPSState D → Prop
  | nonadjUp {s s₁ s₂ s₃ : MPSState D} :
      i + 1 < j → PermUp i (j - 1) s s₁ → coreRel gateCNOT (j - 1) j s₁ s₂ →
      PermDown (j - 1) i s₂ s₃ → CNOTRel i j s (bump2 s₃)
  | nonadjDown {s s₁ s₂ s₃ : MPSState D} :
      j + 1 < i → PermUp j (i - 1) s s₁ → coreRel gateCNOT i (i - 1) s₁ s₂ →
      PermDown (i - 1) j s₂ s₃ → CNOTRel i j s (bump2 s₃)
  | adj {s s' : MPSState D} :
      ¬ i + 1 < j → ¬ j + 1 < i → coreRel gateCNOT i j s s' →
      CNOTRel i j s (bump2 s')

/-! ## The instruction walk -/

/-- The gate-instruction variant dispatched to the visitor (each `measure`
carries the `std::rand()` output consumed by its visit, making the random
source explicit and injectable). -/
inductive Instr
  | hadamard (q : ℕ)
  | x (q : ℕ)
  | y (q : ℕ)
  | z (q : ℕ)
  | cnot (q0 q1 : ℕ)
  | swap (q0 q1 : ℕ)
  | cz (q0 q1 : ℕ)
  | cphase (q0 q1 : ℕ)
  | measure (randOut q : ℕ)
deriving DecidableEq

/-- One dispatched `nextInst->accept(this)`: functional visits are tied to
their defining equations, the two SVD-performing visits to their
relations. -/
def ExecRel {D : ℕ} : Instr → MPSState D → MPSState D → Prop
  | .hadamard q, s, s' => visit_Hadamard q s = .ok s'
  | .x q, s, s' => visit_X q s = .ok s'
  | .y q, s, s' => visit_Y q s = .ok s'
  | .z q, s, s' => visit_Z q s = .ok s'
  | .cnot a b, s, s' => CNOTRel a b s s'
  | .swap a b, s, s' => SwapRel a b s s'
  | .cz a b, s, s' => visit_CZ a b s = .ok s'
  | .cphase a b, s, s' => visit_CPhase a b s = .ok s'
  | .measure r q, s, s' => visit_Measure r q s = .ok s'

/-- The `InstructionIterator` walk of `getExpectationValueZ`: instructions
execute in sequence; a fatal error anywhere means no final state exists. -/
inductive ExecListRel {D : ℕ} : List Instr → MPSState D → MPSState D → Prop
  | nil (s : MPSState D) : ExecListRel [] s s
  | cons {i : Instr} {is : List Instr} {s s₁ s₂ : MPSState D} :
      ExecRel i s s₁ → ExecListRel is s₁ s₂ → ExecListRel (i :: is) s s₂

/-- The epilogue of `getExpectationValueZ`: `snapped = false`, clear
`legMats_m` / `bondMats_m`, restore `legMats` / `bondMats` from the copies
taken on entry, clear-and-resize `cbits` (value-initialised to 0), clear
`iqbits_m`. -/
def restoreAfterExp {D : ℕ} (s₀ sMid : MPSState D) : MPSState D :=
  { sMid with snapped := false, legMats_m := [], bondMats_m := [],
              legMats := s₀.legMats, bondMats := s₀.bondMats,
              cbits := List.replicate sMid.n_qbits 0, iqbits_m := [] }

/-- `getExpectationValueZ(function)`: copy the canonical chain, walk the
instruction list, read the `exp-val-z` datum stored on the buffer
(an exception — no result — if no Measure stored it), and restore. -/
def GetExpZRel {D : ℕ} (insts : List Instr) (s₀ sf : MPSState D) (out : R2) :
    Prop :=
  ∃ sMid : MPSState D, ExecListRel insts s₀ sMid ∧ sMid.expValZ = some out ∧
    sf = restoreAfterExp s₀ sMid

/-! ## The dense state and the state extractor -/

/-- The physical basis bits of storage index `idx`: qubit `i` contributes
bit `i` of `idx` (the running-integer convention `(giind >> iind) & 1` of
the source's enumeration). -/
def bitsOf (n idx : ℕ) : List (Fin 2) :=
  (List.range n).map (fun i => if Nat.testBit idx i then 1 else 0)

/-- The full chain contraction
`legMats[0] * bondMats[0] * legMats[1] * … * legMats[n-1]` at a fixed
assignment of the physical indices, as a matrix from the `head` to the
`tail` boundary. -/
def chainAmp {D : ℕ} : List (Leg D) → List (Mat D) → List (Fin 2) → Mat D
  | [A], _, [b] => A b
  | A :: legs, B :: bonds, b :: bits => A b * B * chainAmp legs bonds bits
  | _, _, _ => 1

/-- The dense amplitude of the canonical chain at storage index `idx`. -/
def ampAt {D : ℕ} (s : MPSState D) (idx : ℕ) : Kc :=
  entry00 (chainAmp s.legMats s.bondMats (bitsOf s.n_qbits idx))

/-- `norm(mps)²`: the sum of squared amplitude magnitudes of the
contracted chain.  Modelled from the spec: `itensor::norm` is an external
tensor-primitive capability ("compute a tensor's norm"); the norm itself
is any `nrm` with `nrm * nrm = stateNormSq s` and `nrm` nonnegative. -/
def stateNormSq {D : ℕ} (s : MPSState D) : R2 :=
  ∑ idx ∈ Finset.range (2 ^ s.n_qbits), Kc.normSq (ampAt s idx)

/-- `|x| < ε`, decided in `ℚ(√2)`. -/
def absLtB (x : R2) (eps : ℚ) : Bool :=
  R2.ltB x (R2.ofRat eps) && R2.ltB (R2.ofRat (-eps)) x

/-- The `store_wf` callback: snap real and imaginary components smaller
than `1e-12` in magnitude to exactly 0. -/
def snapZero (x : Kc) : Kc :=
  ⟨if absLtB x.re (1 / 1000000000000) then 0 else x.re,
   if absLtB x.im (1 / 1000000000000) then 0 else x.im⟩

/-- `getState()`: contract the chain, divide by the norm `nrm` (supplied
as an argument with its defining property a hypothesis wherever this is
used — the norm is computed by the external tensor library), snap noise
to zero, enumerate amplitudes, and reverse the vector
(`vec.reverseInPlace()`). -/
def getState {D : ℕ} (nrm : R2) (s : MPSState D) : List Kc :=
  (((List.range (2 ^ s.n_qbits)).map
    (fun idx => snapZero (Kc.divR (ampAt s idx) nrm)))).reverse

/-! ## Bit-permutation bookkeeping for the swap network -/

/-- Exchange entries `m` and `m+1` of a bit list (the action of an
adjacent SWAP on physical slots). -/
def swapIdx (m : ℕ) (bs : List (Fin 2)) : List (Fin 2) :=
  if m + 1 < bs.length then (bs.set m (bs.getD (m + 1) 0)).set (m + 1) (bs.getD m 0)
  else bs

/-- Apply a list of adjacent transpositions, head outermost: the combined
physical-slot permutation of a sequence of adjacent SWAP cores executed
in list order. -/
def compPos : List ℕ → List (Fin 2) → List (Fin 2)
  | [], bs => bs
  | p :: ps, bs => swapIdx p (compPos ps bs)

/-- The execution-order list of adjacent-transposition positions realised
by one `visit(Swap&)` on qubits `i`, `j`: the forward permute chain, the
gate core, and the mirror chain.  It is a palindrome. -/
def swapPosList (i j : ℕ) : List ℕ :=
  if i + 1 < j then
    List.range' i (j - 1 - i) ++ [j - 1] ++ (List.range' i (j - 1 - i)).reverse
  else if j + 1 < i then
    List.range' j (i - 1 - j) ++ [i - 1] ++ (List.range' j (i - 1 - j)).reverse
  else [min i j]

/-- All state components other than the canonical chain tensors agree:
the footprint of a pure chain update. -/
def sameButChain {D : ℕ} (s s' : MPSState D) : Prop :=
  s'.n_qbits = s.n_qbits ∧ s'.legMats_m = s.legMats_m ∧
  s'.bondMats_m = s.bondMats_m ∧ s'.cbits = s.cbits ∧
  s'.iqbits_m = s.iqbits_m ∧ s'.snapped = s.snapped ∧
  s'.execTime = s.execTime ∧ s'.singleQubitTime = s.singleQubitTime ∧
  s'.twoQubitTime = s.twoQubitTime ∧ s'.svdCutoff = s.svdCutoff ∧
  s'.expValZ = s.expValZ

/-! ## General-purpose lemmas -/

theorem exceptBind_ok {ε α β : Type _} {x : Except ε α} {f : α → Except ε β}
    {b : β} : (x >>= f) = .ok b ↔ ∃ a, x = .ok a ∧ f a = .ok b := by
  cases x with
  | ok a =>
    constructor
    · intro h; exact ⟨a, rfl, h⟩
    · rintro ⟨a', ha', hf⟩; cases ha'; exact hf
  | error e =>
    constructor
    · intro h; exact Except.noConfusion h
    · rintro ⟨a', ha', _⟩; exact Except.noConfusion ha'

theorem exceptOk_bind {ε α β : Type _} (a : α) (f : α → Except ε β) :
    (Except.ok a >>= f : Except ε β) = f a := rfl

theorem getI_ok_iff {α : Type _} {l : List α} {i : ℤ} {a : α} :
    getI l i = .ok a ↔ ∃ h : 0 ≤ i ∧ i.toNat < l.length, l.get ⟨i.toNat, h.2⟩ = a := by
  unfold getI
  by_cases h : 0 ≤ i ∧ i.toNat < l.length <;> simp [h]

theorem getI_isOk {α : Type _} (l : List α) (i : ℤ) (h0 : 0 ≤ i)
    (h : i.toNat < l.length) : ∃ a, getI l i = .ok a := by
  refine ⟨l.get ⟨i.toNat, h⟩, ?_⟩
  unfold getI
  simp [h0, h]

theorem getI_nil {α : Type _} (i : ℤ) :
    getI (l := ([] : List α)) i = .error .indexOutOfBounds := by
  unfold getI
  simp

theorem sweepLoop_isOk {D : ℕ} {f : ℕ → Mat D → Except EngineError (Mat D)}
    {l : List ℕ} (h : ∀ i ∈ l, ∀ acc, ∃ y, f i acc = .ok y) :
    ∀ acc, ∃ y, sweepLoop f l acc = .ok y := by
  induction l with
  | nil => intro acc; exact ⟨acc, rfl⟩
  | cons i is ih =>
    intro acc
    obtain ⟨y, hy⟩ := h i (by simp) acc
    obtain ⟨z, hz⟩ := ih (fun j hj => h j (by simp [hj])) y
    refine ⟨z, ?_⟩
    simp only [sweepLoop, hy]
    exact hz

namespace R2

/-- The field norm of `ℚ(√2)` down to `ℚ`. -/
def normQ (x : R2) : ℚ := x.a ^ 2 - 2 * x.b ^ 2

theorem normQ_mul (x y : R2) : normQ (x * y) = normQ x * normQ y := by
  simp [normQ, mul_def]; ring

theorem sq_ne_two (q : ℚ) : q ^ 2 ≠ 2 := by
  intro h
  have h2 : ((q : ℝ)) ^ 2 = 2 := by exact_mod_cast h
  have hs : Real.sqrt 2 = |(q : ℝ)| := by
    rw [show (2 : ℝ) = ((q : ℝ)) ^ 2 from h2.symm, Real.sqrt_sq_eq_abs]
  have hirr : Irrational ((|q| : ℚ) : ℝ) := by
    have := irrational_sqrt_two
    rwa [hs, ← Rat.cast_abs] at this
  exact (Rat.not_irrational _) hirr

theorem normQ_eq_zero {x : R2} (h : normQ x = 0) : x = 0 := by
  by_cases hb : x.b = 0
  · have ha : x.a = 0 := by
      have := h
      simp [normQ, hb] at this
      simpa using this
    cases x
    simp_all [zero_def]
  · exfalso
    apply sq_ne_two (x.a / x.b)
    have hb2 : x.b ^ 2 ≠ 0 := pow_ne_zero _ hb
    field_simp
    have : x.a ^ 2 = 2 * x.b ^ 2 := by
      have := h; simp [normQ] at this; linarith
    linarith

theorem mul_eq_zero_iff' {x y : R2} (h : x * y = 0) : x = 0 ∨ y = 0 := by
  have hn : normQ x * normQ y = 0 := by
    rw [← normQ_mul, h]; simp [normQ, zero_def]
  rcases mul_eq_zero.mp hn with h1 | h1
  · exact Or.inl (normQ_eq_zero h1)
  · exact Or.inr (normQ_eq_zero h1)

theorem eq_one_of_mul_self {x : R2} (h : x * x = 1) (hx : nonneg x) : x = 1 := by
  have hfac : (x - 1) * (x + 1) = 0 := by ring_nf; linear_combination h
  rcases mul_eq_zero_iff' hfac with h1 | h1
  · have : x = 1 := by
      have := sub_eq_zero.mp h1; exact this
    exact this
  · exfalso
    have hx1 : x = -1 := by
      have := eq_neg_of_add_eq_zero_left h1; exact this
    rw [hx1] at hx
    rcases hx with h2 | h2
    · exact absurd h2 (by with_unfolding_all decide)
    · exact absurd h2 (by with_unfolding_all decide)

theorem div_one (x : R2) : div x 1 = x := by
  have : inv 1 = 1 := by
    show inv ⟨1, 0⟩ = ⟨1, 0⟩
    simp [inv]
  rw [div, this, mul_one]

end R2

theorem Kc.divR_one (x : Kc) : Kc.divR x 1 = x := by
  cases x
  simp [Kc.divR, R2.div_one]

end TnqvmMPS

namespace TnqvmMPS

/-! ## Field lemmas for the snapshot and the sweeps -/

theorem snap_legMats {D : ℕ} (s : MPSState D) :
    (snap_wavefunc s).legMats = s.legMats := by
  unfold snap_wavefunc; split <;> rfl

theorem snap_bondMats {D : ℕ} (s : MPSState D) :
    (snap_wavefunc s).bondMats = s.bondMats := by
  unfold snap_wavefunc; split <;> rfl

theorem snap_n_qbits {D : ℕ} (s : MPSState D) :
    (snap_wavefunc s).n_qbits = s.n_qbits := by
  unfold snap_wavefunc; split <;> rfl

theorem snap_cbits {D : ℕ} (s : MPSState D) :
    (snap_wavefunc s).cbits = s.cbits := by
  unfold snap_wavefunc; split <;> rfl

theorem snap_execTime {D : ℕ} (s : MPSState D) :
    (snap_wavefunc s).execTime = s.execTime := by
  unfold snap_wavefunc; split <;> rfl

theorem snap_twoQubitTime {D : ℕ} (s : MPSState D) :
    (snap_wavefunc s).twoQubitTime = s.twoQubitTime := by
  unfold snap_wavefunc; split <;> rfl

theorem sameButChain_refl {D : ℕ} (s : MPSState D) : sameButChain s s :=
  ⟨rfl, rfl, rfl, rfl, rfl, rfl, rfl, rfl, rfl, rfl, rfl⟩

theorem sameButChain_trans {D : ℕ} {s t u : MPSState D}
    (h1 : sameButChain s t) (h2 : sameButChain t u) : sameButChain s u := by
  obtain ⟨a1, a2, a3, a4, a5, a6, a7, a8, a9, a10, a11⟩ := h1
  obtain ⟨b1, b2, b3, b4, b5, b6, b7, b8, b9, b10, b11⟩ := h2
  exact ⟨b1.trans a1, b2.trans a2, b3.trans a3, b4.trans a4, b5.trans a5,
    b6.trans a6, b7.trans a7, b8.trans a8, b9.trans a9, b10.trans a10,
    b11.trans a11⟩

theorem coreRel_sameButChain {D : ℕ} {G : G4} {a b : ℕ} {s s' : MPSState D}
    (h : coreRel G a b s s') : sameButChain s s' := by
  obtain ⟨M, L, Bd, Rg, _, _, hs⟩ := h
  subst hs
  exact sameButChain_refl s

theorem permUp_sameButChain {D : ℕ} {a b : ℕ} {s s' : MPSState D}
    (h : PermUp a b s s') : sameButChain s s' := by
  induction h with
  | done q s => exact sameButChain_refl s
  | step _ hcore _ ih => exact sameButChain_trans (coreRel_sameButChain hcore) ih

theorem permDown_sameButChain {D : ℕ} {a b : ℕ} {s s' : MPSState D}
    (h : PermDown a b s s') : sameButChain s s' := by
  induction h with
  | done q s => exact sameButChain_refl s
  | step _ hcore _ ih => exact sameButChain_trans (coreRel_sameButChain hcore) ih

theorem swapRel_sameButChain {D : ℕ} {i j : ℕ} {s s' : MPSState D}
    (h : SwapRel i j s s') : sameButChain s s' := by
  cases h with
  | nonadjUp _ hup hcore hdown =>
    exact sameButChain_trans (permUp_sameButChain hup)
      (sameButChain_trans (coreRel_sameButChain hcore)
        (permDown_sameButChain hdown))
  | nonadjDown _ hup hcore hdown =>
    exact sameButChain_trans (permUp_sameButChain hup)
      (sameButChain_trans (coreRel_sameButChain hcore)
        (permDown_sameButChain hdown))
  | adj _ _ hcore => exact coreRel_sameButChain hcore

theorem average_congr {D : ℕ} (q : ℕ) (op : G2) (s t : MPSState D)
    (h1 : s.legMats = t.legMats) (h2 : s.bondMats = t.bondMats)
    (h3 : s.n_qbits = t.n_qbits) : average q op s = average q op t := by
  unfold average; rw [h1, h2, h3]

theorem wavefunc_inner_congr {D : ℕ} (s t : MPSState D)
    (h1 : s.legMats = t.legMats) (h2 : s.bondMats = t.bondMats)
    (h3 : s.n_qbits = t.n_qbits) : wavefunc_inner s = wavefunc_inner t := by
  unfold wavefunc_inner; rw [h1, h2, h3]

end TnqvmMPS


namespace TnqvmMPS

/-! ## Concrete states used to instantiate the claims -/

/-- Extract the state of a successful visit (fallback: the argument
default, never used on the concrete inputs below). -/
def okOr {D : ℕ} (d : MPSState D) : Except EngineError (MPSState D) → MPSState D
  | .ok s => s
  | .error _ => d

/-- A one-qubit state whose buffer carries an `exp-val-z` datum. -/
def wExpSt : MPSState 1 := { initState 1 1 0 0 0 with expValZ := some 1 }

/-- The two-qubit initial state after `visit(Hadamard&)` on qubit 0. -/
def wC3H : MPSState 1 := okOr (initState 1 2 0 0 0)
  (visit_Hadamard 0 (initState 1 2 0 0 0))

/-- `wC3H` after `visit(Measure&)` on qubit 0 with random output 700000
(`rv = 0.7 ≥ p0 = 0.5`: collapse to `|1⟩`). -/
def wC3M : MPSState 1 := okOr (initState 1 2 0 0 0) (visit_Measure 700000 0 wC3H)

/-- The two-qubit initial state after `visit(Measure&)` on qubit 0 with
random output 0 (`rv = 0 < p0 = 1`: collapse to `|0⟩`). -/
def wC1M : MPSState 1 := okOr (initState 1 2 0 0 0)
  (visit_Measure 0 0 (initState 1 2 0 0 0))

end TnqvmMPS


namespace TnqvmMPS

/-! ## Concrete states for claims C5 and C6 -/

/-- Extract the merged tensor of a successful `mergedTensor` call. -/
def mergedOr {D : ℕ} (d : Fin 2 → Fin 2 → Mat D) :
    Except EngineError (Fin 2 → Fin 2 → Mat D) → (Fin 2 → Fin 2 → Mat D)
  | .ok M => M
  | .error _ => d

/-- The two-qubit initial state (padding dimension 2). -/
def wC5In : MPSState 2 := initState 2 2 0 0 0

/-- `wC5In` after `visit(Hadamard&)` on qubit 0. -/
def wC5H : MPSState 2 := okOr wC5In (visit_Hadamard 0 wC5In)

/-- The merged tensor of the adjacent CNOT on the post-Hadamard state. -/
def wC5M : Fin 2 → Fin 2 → Mat 2 :=
  mergedOr (fun _ _ => 0) (mergedTensor gateCNOT 0 1 wC5H)

/-- Exact SVD left factor for the Bell merged tensor:
slice `s` is the matrix unit `E(0, s)`. -/
def wC5L : Leg 2 := fun s =>
  Matrix.of fun i j => if i.val = 0 ∧ j.val = s.val then 1 else 0

/-- Exact SVD bond factor for the Bell merged tensor: `(1/√2) · I`. -/
def wC5Bd : Mat 2 := Matrix.of fun i j => if i = j then Kc.halfSqrt2 else 0

/-- Exact SVD right factor for the Bell merged tensor:
slice `t` is the matrix unit `E(t, 0)`. -/
def wC5R : Leg 2 := fun t =>
  Matrix.of fun i j => if i.val = t.val ∧ j.val = 0 then 1 else 0

/-- The post-CNOT state built from the exact triple, elapsed time
bumped. -/
def wC5Out : MPSState 2 := bump2 (installCore 0 1 wC5L wC5Bd wC5R wC5H)

/-- The three-qubit initial state (padding dimension 1), the base state
of the non-adjacent SWAP witness: every adjacent SWAP core of the
`Swap(0,2)` network maps it to itself through the rank-one exact triple
`(leg0, E00, leg0)`. -/
def sInit3 : MPSState 1 := initState 1 3 0 0 0

end TnqvmMPS

namespace TnqvmMPS

/-! ## Concrete states for claim C9 -/

/-- A two-qubit initial state with gate durations `1q = 3`, `2q = 5`. -/
def wC9In : MPSState 1 := initState 1 2 3 5 0

/-- The result of installing the exact (rank-one) SVD triple
`(leg0, E00, leg0)` of the SWAP-merged tensor of `|00⟩` on sites
`(0, 1)`. -/
def wC9Out : MPSState 1 := installCore 0 1 leg0 E00 leg0 wC9In

/-- The same installation as a CNOT visit: the elapsed time is bumped. -/
def wC9CnotOut : MPSState 1 := bump2 (installCore 0 1 leg0 E00 leg0 wC9In)

/-- `wC9In` after `Measure(0)` with random output 0. -/
def wC9Meas : MPSState 1 := okOr wC9In (visit_Measure 0 0 wC9In)

end TnqvmMPS

namespace TnqvmMPS

/-! ## Claim C4: CZ and CPhase fail fatally -/

/-- C4: every invocation of `visit(CZ&)` or `visit(CPhase&)` raises the
corresponding fatal `xacc::error` and produces no state: evaluation
aborts (the walk relation `ExecRel` relates a `cz`/`cphase` instruction to a
successor state only when the visit returns `.ok`, which it never does),
the gate is not silently skipped, and no modified MPS state is ever
returned. -/
theorem claim_C4 {D : ℕ} (s : MPSState D) (q0 q1 : ℕ) :
    visit_CZ q0 q1 s = .error .czUnsupported ∧
    visit_CPhase q0 q1 s = .error .cphaseUnimplemented ∧
    (∀ s' : MPSState D, ¬ ExecRel (.cz q0 q1) s s') ∧
    (∀ s' : MPSState D, ¬ ExecRel (.cphase q0 q1) s s') := by
  refine ⟨rfl, rfl, ?_, ?_⟩
  · intro s' h
    exact Except.noConfusion (h : visit_CZ q0 q1 s = .ok s')
  · intro s' h
    exact Except.noConfusion (h : visit_CPhase q0 q1 s = .ok s')

/-- C4 instantiated at a concrete state (all hypotheses of the inner
negations are discharged by the impossibility itself; the equalities are
checked at `q0 = 0`, `q1 = 1` on the two-qubit initial state). -/
theorem claim_C4_witness :
    visit_CZ 0 1 (initState 1 2 0 0 0) = .error .czUnsupported ∧
    visit_CPhase 0 1 (initState 1 2 0 0 0) = .error .cphaseUnimplemented :=
  ⟨(claim_C4 (initState 1 2 0 0 0) 0 1).1, (claim_C4 (initState 1 2 0 0 0) 0 1).2.1⟩

end TnqvmMPS

namespace TnqvmMPS

/-! ## Claim C2: expectation-value queries leave the canonical trajectory
unchanged -/

/-- C2: after any `getExpectationValueZ` query (over an arbitrary
instruction sequence), the canonical leg and bond chains equal the
chains before the query, the snapshot buffers, classical-bit register
and measured-qubit set are cleared, and a subsequent single-qubit gate
application produces exactly the tensors it would have produced had the
query never been made. -/
theorem claim_C2 {D : ℕ} (insts : List Instr) (s₀ sf : MPSState D) (out : R2)
    (h : GetExpZRel insts s₀ sf out) :
    sf.legMats = s₀.legMats ∧ sf.bondMats = s₀.bondMats ∧
    sf.legMats_m = [] ∧ sf.bondMats_m = [] ∧ sf.snapped = false ∧
    sf.cbits = List.replicate sf.n_qbits 0 ∧ sf.iqbits_m = [] ∧
    (∀ (G : G2) (q : ℕ),
      (visit1Q G q sf).map (fun u => (u.legMats, u.bondMats)) =
      (visit1Q G q s₀).map (fun u => (u.legMats, u.bondMats))) := by
  obtain ⟨sMid, _hexec, _hout, hsf⟩ := h
  subst hsf
  refine ⟨rfl, rfl, rfl, rfl, rfl, rfl, rfl, ?_⟩
  intro G q
  unfold visit1Q restoreAfterExp
  cases hA : getI s₀.legMats (q : ℤ) with
  | ok A => simp only [hA]; rfl
  | error e => simp only [hA]; rfl

/-- C2 at a concrete input: the empty query sequence on a one-qubit state
whose buffer already carries an `exp-val-z` datum. -/
theorem claim_C2_witness :
    (restoreAfterExp wExpSt wExpSt).legMats = wExpSt.legMats ∧
    (restoreAfterExp wExpSt wExpSt).cbits =
      List.replicate (restoreAfterExp wExpSt wExpSt).n_qbits 0 := by
  have h := claim_C2 [] wExpSt (restoreAfterExp wExpSt wExpSt) 1
    ⟨wExpSt, ExecListRel.nil _, rfl, rfl⟩
  exact ⟨h.1, h.2.2.2.2.2.1⟩

end TnqvmMPS

namespace TnqvmMPS

/-! ## Claim C1: the Measure visit -/

/-- C1: whenever `visit(Measure&)` on qubit `q` completes, the drawn
random value `rv = (rand() % 1000000)/1000000` lies in `[0, 1)`, the
collapse probability is computed as
`p0 = average(q, tMeasure0) / wavefunc_inner()` — the `|0⟩`-projected
inner product of the canonical state divided by its norm — and if
`rv < p0` the classical bit of `q` is set to 0 and the leg tensor of `q`
is replaced by its `|0⟩`-projection, otherwise the bit is set to 1 and
the leg tensor is replaced by its `|1⟩`-projection; the projected tensor
is installed verbatim and the bond tensors are untouched, so no
renormalisation happens at collapse time. -/
theorem claim_C1 {D : ℕ} (r q : ℕ) (s s' : MPSState D)
    (h : visit_Measure r q s = .ok s') :
    (0 ≤ measureRv r ∧ measureRv r < 1) ∧
    ∃ av inn A, average q proj0 s = .ok av ∧ wavefunc_inner s = .ok inn ∧
      getI s.legMats (q : ℤ) = .ok A ∧ s'.bondMats = s.bondMats ∧
      (R2.lt (R2.ofRat (measureRv r)) (R2.div av inn) →
        s'.cbits = s.cbits.set q 0 ∧
        s'.legMats = s.legMats.set q (applyGate1 proj0 A)) ∧
      (¬ R2.lt (R2.ofRat (measureRv r)) (R2.div av inn) →
        s'.cbits = s.cbits.set q 1 ∧
        s'.legMats = s.legMats.set q (applyGate1 proj1 A)) := by
  constructor
  · constructor
    · unfold measureRv; positivity
    · unfold measureRv
      rw [div_lt_one (by norm_num)]
      exact_mod_cast Nat.mod_lt r (by norm_num)
  · rw [visit_Measure] at h
    simp only [exceptBind_ok] at h
    obtain ⟨ev, _hev, av, hav, inn, hinn, A, hA, h⟩ := h
    refine ⟨av, inn, A, ?_, ?_, ?_, ?_, ?_, ?_⟩
    · rw [← hav]
      exact (average_congr q proj0 _ _ (snap_legMats s) (snap_bondMats s)
        (snap_n_qbits s)).symm
    · rw [← hinn]
      exact (wavefunc_inner_congr _ _ (snap_legMats s) (snap_bondMats s)
        (snap_n_qbits s)).symm
    · rw [← hA]
      exact congrArg (fun l => getI l (q : ℤ)) (snap_legMats s).symm
    · by_cases hc : R2.lt (R2.ofRat (measureRv r)) (R2.div av inn)
      · rw [if_pos hc] at h
        cases h
        exact snap_bondMats s
      · rw [if_neg hc] at h
        cases h
        exact snap_bondMats s
    · intro hc
      rw [if_pos hc] at h
      cases h
      exact ⟨congrArg (fun l => l.set q 0) (snap_cbits s),
             congrArg (fun l => l.set q (applyGate1 proj0 A)) (snap_legMats s)⟩
    · intro hc
      rw [if_neg hc] at h
      cases h
      exact ⟨congrArg (fun l => l.set q 1) (snap_cbits s),
             congrArg (fun l => l.set q (applyGate1 proj1 A)) (snap_legMats s)⟩

/-- C1 instantiated on `|00⟩` with random output 0: the visit succeeds
(hypothesis discharged by computation) and the branch data are as the
theorem states. -/
theorem claim_C1_witness :
    visit_Measure 0 0 (initState 1 2 0 0 0) = .ok wC1M ∧
    ((0 ≤ measureRv 0 ∧ measureRv 0 < 1) ∧
     ∃ av inn A, average 0 proj0 (initState 1 2 0 0 0) = .ok av ∧
       wavefunc_inner (initState 1 2 0 0 0) = .ok inn ∧
       getI (initState 1 2 0 0 0).legMats (0 : ℤ) = .ok A ∧
       wC1M.bondMats = (initState 1 2 0 0 0).bondMats ∧
       (R2.lt (R2.ofRat (measureRv 0)) (R2.div av inn) →
         wC1M.cbits = (initState 1 2 0 0 0).cbits.set 0 0 ∧
         wC1M.legMats = (initState 1 2 0 0 0).legMats.set 0 (applyGate1 proj0 A)) ∧
       (¬ R2.lt (R2.ofRat (measureRv 0)) (R2.div av inn) →
         wC1M.cbits = (initState 1 2 0 0 0).cbits.set 0 1 ∧
         wC1M.legMats = (initState 1 2 0 0 0).legMats.set 0 (applyGate1 proj1 A))) := by
  have hok : visit_Measure 0 0 (initState 1 2 0 0 0) = .ok wC1M := by
    with_unfolding_all decide
  exact ⟨hok, claim_C1 0 0 (initState 1 2 0 0 0) wC1M hok⟩

end TnqvmMPS

namespace TnqvmMPS

/-! ## Claim C3: what the snapshot protects during a measurement round

The source does *not* do what the claim says: `averZs` reads the snapshot
copies, but the wavefunction collapse in `visit(Measure&)` assigns
`legMats[iqbit_measured]` — the canonical chain — and the snapshot copies
are left untouched.  The canonical trajectory is only repaired later by
the restore in `getExpectationValueZ`. -/

/-- C3 counterexample: on `H(0)` applied to `|00⟩` followed by
`Measure(0)` with `rv = 0.7`, the snapshot is taken (first measurement of
the round), yet after the visit the canonical leg tensors differ from the
canonical leg tensors before it — the collapse mutated the canonical
chain, not only the snapshot copies (which still hold the pre-collapse
tensors). -/
theorem claim_C3_counterexample :
    visit_Hadamard 0 (initState 1 2 0 0 0) = .ok wC3H ∧
    visit_Measure 700000 0 wC3H = .ok wC3M ∧
    wC3M.snapped = true ∧ wC3M.legMats_m = wC3H.legMats ∧
    wC3M.legMats ≠ wC3H.legMats := by
  set_option maxRecDepth 100000 in
  with_unfolding_all decide

/-- C3 amended: during a measurement round that is already snapshotted,
a Measure visit leaves the snapshot buffers `legMats_m` / `bondMats_m`
(and the bond tensors) unchanged, and mutates the *canonical* leg tensor
of the measured qubit, replacing it by its `|0⟩`- or `|1⟩`-projection. -/
theorem claim_C3 {D : ℕ} (r q : ℕ) (s s' : MPSState D)
    (hsnap : s.snapped = true) (h : visit_Measure r q s = .ok s') :
    s'.legMats_m = s.legMats_m ∧ s'.bondMats_m = s.bondMats_m ∧
    s'.snapped = true ∧ s'.bondMats = s.bondMats ∧
    ∃ A, getI s.legMats (q : ℤ) = .ok A ∧
      (s'.legMats = s.legMats.set q (applyGate1 proj0 A) ∨
       s'.legMats = s.legMats.set q (applyGate1 proj1 A)) := by
  have hid : snap_wavefunc s = s := by
    unfold snap_wavefunc; rw [hsnap]; rfl
  rw [visit_Measure, hid] at h
  simp only [exceptBind_ok] at h
  obtain ⟨ev, _hev, av, _hav, inn, _hinn, A, hA, h⟩ := h
  by_cases hc : R2.lt (R2.ofRat (measureRv r)) (R2.div av inn)
  · rw [if_pos hc] at h
    cases h
    exact ⟨rfl, rfl, hsnap, rfl, A, hA, Or.inl rfl⟩
  · rw [if_neg hc] at h
    cases h
    exact ⟨rfl, rfl, hsnap, rfl, A, hA, Or.inr rfl⟩

/-- The C3 amended theorem applied at a concrete snapshotted state: a
second measurement of qubit 0 on the already-collapsed, snapshotted
state `wC3M`. -/
theorem claim_C3_witness :
    (okOr (initState 1 2 0 0 0) (visit_Measure 0 0 wC3M)).legMats_m =
      wC3M.legMats_m ∧
    (okOr (initState 1 2 0 0 0) (visit_Measure 0 0 wC3M)).snapped = true := by
  have hok : visit_Measure 0 0 wC3M =
      .ok (okOr (initState 1 2 0 0 0) (visit_Measure 0 0 wC3M)) := by
    set_option maxRecDepth 100000 in
    with_unfolding_all decide
  have h := claim_C3 0 0 wC3M _ (by
    set_option maxRecDepth 100000 in
    with_unfolding_all decide) hok
  exact ⟨h.1, h.2.2.1⟩

end TnqvmMPS

namespace TnqvmMPS

/-! ## Claim C7: deterministic collapse at n = 1

The spec's testable property demands that on a one-qubit register
`X; Measure(0)` sets the classical bit to 1 with `p0 = 0`.  The code
cannot deliver it: every contraction sweep unconditionally indexes
`bondMats[0]` (and `bondMats[n_qbits-2] = bondMats[-1]`), which on a
one-qubit register is an out-of-bounds access into the *empty* bond
vector — undefined behaviour, modelled as `indexOutOfBounds`. -/

/-- C7 (code bug): evaluating `X(0); Measure(0)` on the one-qubit initial
state aborts with an out-of-bounds access — for every random draw, so the
promised `cbit = 1` outcome is never produced. -/
theorem claim_C7_codebug :
    (visit_X 0 (initState 1 1 0 0 0) >>= visit_Measure 0 0) =
      .error .indexOutOfBounds ∧
    ∀ r : ℕ, (visit_X 0 (initState 1 1 0 0 0) >>= visit_Measure r 0) =
      .error .indexOutOfBounds := by
  constructor
  · with_unfolding_all decide
  · intro r
    have hx : visit_X (D := 1) 0 (initState 1 1 0 0 0) =
        .ok (okOr (initState 1 1 0 0 0) (visit_X 0 (initState 1 1 0 0 0))) := by
      with_unfolding_all decide
    rw [hx, exceptOk_bind, visit_Measure]
    have hz : averZs (insertSet 0 (snap_wavefunc (okOr (initState 1 1 0 0 0)
          (visit_X 0 (initState 1 1 0 0 0)))).iqbits_m)
        { snap_wavefunc (okOr (initState 1 1 0 0 0)
            (visit_X 0 (initState 1 1 0 0 0))) with
          iqbits_m := insertSet 0 (snap_wavefunc (okOr (initState 1 1 0 0 0)
            (visit_X 0 (initState 1 1 0 0 0)))).iqbits_m } =
        .error .indexOutOfBounds := by
      with_unfolding_all decide
    rw [hz]
    rfl

end TnqvmMPS

namespace TnqvmMPS

/-! ## Claim C10: the sweeps index `bondMats[0]` and `bondMats[n-2]`
unconditionally -/

theorem getI_error_eq {α : Type _} {l : List α} {i : ℤ} {e : EngineError}
    (h : getI l i = .error e) : e = .indexOutOfBounds := by
  unfold getI at h
  split at h
  · exact Except.noConfusion h
  · cases h; rfl

/-- C10: `wavefunc_inner`, `average` and `averZs` unconditionally access
`bondMats[0]` and `bondMats[n_qbits - 2]`, so (first conjunct) on a
register with `n_qbits = 1` — whose bond vector is empty — every such
sweep is an out-of-bounds access, and (second conjunct) on a well-formed
chain with `n_qbits ≥ 2` every access of every sweep is in bounds:
`wavefunc_inner` and `average` return values and `averZs` never fails
with an out-of-bounds access. -/
theorem claim_C10 {D : ℕ} :
    (∀ s : MPSState D, s.n_qbits = 1 → s.bondMats = [] → s.bondMats_m = [] →
      wavefunc_inner s = .error .indexOutOfBounds ∧
      (∀ q op, average q op s = .error .indexOutOfBounds) ∧
      (∀ iq, averZs iq s = .error .indexOutOfBounds)) ∧
    (∀ n : ℕ, 2 ≤ n → ∀ s : MPSState D, WFChain n s →
      (∃ v, wavefunc_inner s = .ok v) ∧
      (∀ q op, ∃ v, average q op s = .ok v) ∧
      (s.legMats_m.length = n → s.bondMats_m.length = n - 1 →
        ∀ iq, averZs iq s ≠ .error .indexOutOfBounds)) := by
  constructor
  · intro s _hn hb hbm
    refine ⟨?_, ?_, ?_⟩
    · unfold wavefunc_inner
      cases hA : getI s.legMats 0 with
      | ok A0 => rw [exceptOk_bind, hb, getI_nil]; rfl
      | error e => cases getI_error_eq hA; rfl
    · intro q op
      unfold average
      cases hA : getI s.legMats 0 with
      | ok A0 => rw [exceptOk_bind, hb, getI_nil]; rfl
      | error e => cases getI_error_eq hA; rfl
    · intro iq
      unfold averZs
      cases hA : getI s.legMats_m 0 with
      | ok A0 => rw [exceptOk_bind, hbm, getI_nil]; rfl
      | error e => cases getI_error_eq hA; rfl
  · intro n hn s hwf
    obtain ⟨hnq, hL, hB⟩ := hwf
    have hstep : ∀ (legs : List (Leg D)) (bonds : List (Mat D)),
        legs.length = n → bonds.length = n - 1 →
        ∀ i ∈ List.range' 1 (s.n_qbits - 2),
          (0 ≤ (i : ℤ) ∧ (i : ℤ).toNat < legs.length) ∧
          (0 ≤ (i : ℤ) ∧ (i : ℤ).toNat < bonds.length) ∧
          (0 ≤ (i : ℤ) - 1 ∧ ((i : ℤ) - 1).toNat < bonds.length) := by
      intro legs bonds hl hbnd i hi
      rw [List.mem_range'_1, hnq] at hi
      refine ⟨⟨by omega, by omega⟩, ⟨by omega, by omega⟩, by omega, by omega⟩
    have hA0 : ∃ a, getI s.legMats 0 = .ok a :=
      getI_isOk _ _ (by omega) (by omega)
    have hB0 : ∃ a, getI s.bondMats 0 = .ok a :=
      getI_isOk _ _ (by omega) (by omega)
    have hAn : ∃ a, getI s.legMats ((s.n_qbits : ℤ) - 1) = .ok a :=
      getI_isOk _ _ (by omega) (by omega)
    have hBn : ∃ a, getI s.bondMats ((s.n_qbits : ℤ) - 2) = .ok a :=
      getI_isOk _ _ (by omega) (by omega)
    obtain ⟨A0, hA0⟩ := hA0
    obtain ⟨B0, hB0⟩ := hB0
    obtain ⟨An, hAn⟩ := hAn
    obtain ⟨Bn, hBn⟩ := hBn
    refine ⟨?_, ?_, ?_⟩
    · unfold wavefunc_inner
      rw [hA0, exceptOk_bind, hB0, exceptOk_bind]
      obtain ⟨acc, hacc⟩ := sweepLoop_isOk (f := fun i acc => do
          let Ai ← getI s.legMats (i : ℤ)
          let Bi ← getI s.bondMats (i : ℤ)
          let Bp ← getI s.bondMats ((i : ℤ) - 1)
          pure (midPlain Ai Bi Bp acc))
        (fun i hi acc => by
          obtain ⟨h1, h2, h3⟩ := hstep s.legMats s.bondMats hL hB i hi
          obtain ⟨Ai, hAi⟩ := getI_isOk _ _ h1.1 h1.2
          obtain ⟨Bi, hBi⟩ := getI_isOk _ _ h2.1 h2.2
          obtain ⟨Bp, hBp⟩ := getI_isOk _ _ h3.1 h3.2
          exact ⟨_, by simp only [hAi, hBi, hBp, exceptOk_bind]; rfl⟩)
        (startAccPlain A0 B0)
      rw [hacc, exceptOk_bind, hAn, exceptOk_bind, hBn, exceptOk_bind]
      exact ⟨_, rfl⟩
    · intro q op
      unfold average
      rw [hA0, exceptOk_bind, hB0, exceptOk_bind]
      obtain ⟨acc, hacc⟩ := sweepLoop_isOk (f := fun i acc => do
          let Ai ← getI s.legMats (i : ℤ)
          let Bi ← getI s.bondMats (i : ℤ)
          let Bp ← getI s.bondMats ((i : ℤ) - 1)
          pure (if i = q then midOp op Ai Bi Bp acc else midPlain Ai Bi Bp acc))
        (fun i hi acc => by
          obtain ⟨h1, h2, h3⟩ := hstep s.legMats s.bondMats hL hB i hi
          obtain ⟨Ai, hAi⟩ := getI_isOk _ _ h1.1 h1.2
          obtain ⟨Bi, hBi⟩ := getI_isOk _ _ h2.1 h2.2
          obtain ⟨Bp, hBp⟩ := getI_isOk _ _ h3.1 h3.2
          exact ⟨_, by simp only [hAi, hBi, hBp, exceptOk_bind]; rfl⟩)
        (if q = 0 then startAccOp op A0 B0 else startAccPlain A0 B0)
      simp only [exceptOk_bind, hacc, hAn, hBn]
      by_cases hq : (q : ℤ) = (s.n_qbits : ℤ) - 1
      · rw [if_pos hq]; exact ⟨_, rfl⟩
      · rw [if_neg hq]; exact ⟨_, rfl⟩
    · intro hLm hBm iq
      obtain ⟨A0m, hA0m⟩ : ∃ a, getI s.legMats_m 0 = .ok a :=
        getI_isOk _ _ (by omega) (by omega)
      obtain ⟨B0m, hB0m⟩ : ∃ a, getI s.bondMats_m 0 = .ok a :=
        getI_isOk _ _ (by omega) (by omega)
      obtain ⟨Anm, hAnm⟩ : ∃ a, getI s.legMats_m ((s.n_qbits : ℤ) - 1) = .ok a :=
        getI_isOk _ _ (by omega) (by omega)
      obtain ⟨Bnm, hBnm⟩ : ∃ a, getI s.bondMats_m ((s.n_qbits : ℤ) - 2) = .ok a :=
        getI_isOk _ _ (by omega) (by omega)
      unfold averZs
      rw [hA0m, exceptOk_bind, hB0m, exceptOk_bind]
      obtain ⟨acc, hacc⟩ := sweepLoop_isOk (f := fun i acc => do
          let Ai ← getI s.legMats_m (i : ℤ)
          let Bi ← getI s.bondMats_m (i : ℤ)
          let Bp ← getI s.bondMats_m ((i : ℤ) - 1)
          pure (if iq.contains i then midOp gateZ Ai Bi Bp acc
                else midPlain Ai Bi Bp acc))
        (fun i hi acc => by
          obtain ⟨h1, h2, h3⟩ := hstep s.legMats_m s.bondMats_m hLm hBm i hi
          obtain ⟨Ai, hAi⟩ := getI_isOk _ _ h1.1 h1.2
          obtain ⟨Bi, hBi⟩ := getI_isOk _ _ h2.1 h2.2
          obtain ⟨Bp, hBp⟩ := getI_isOk _ _ h3.1 h3.2
          exact ⟨_, by simp only [hAi, hBi, hBp, exceptOk_bind]; rfl⟩)
        (if iq.contains 0 then startAccOp gateZ A0m B0m else startAccPlain A0m B0m)
      simp only [exceptOk_bind, hacc, hAnm, hBnm]
      split <;> split <;> simp [pure, Except.pure]

/-- C10 instantiated: the one-qubit initial state errors out of bounds,
and the snapshotted two-qubit initial state is in bounds for all three
sweeps. -/
theorem claim_C10_witness :
    wavefunc_inner (initState 1 1 0 0 0) = .error .indexOutOfBounds ∧
    (∃ v, wavefunc_inner (snap_wavefunc (initState 1 2 0 0 0)) = .ok v) ∧
    averZs [0] (snap_wavefunc (initState 1 2 0 0 0)) ≠
      .error .indexOutOfBounds := by
  refine ⟨((claim_C10 (D := 1)).1 (initState 1 1 0 0 0) rfl rfl rfl).1, ?_, ?_⟩
  · exact ((claim_C10 (D := 1)).2 2 (by norm_num)
      (snap_wavefunc (initState 1 2 0 0 0))
      ⟨rfl, by with_unfolding_all decide, by with_unfolding_all decide⟩).1
  · exact ((claim_C10 (D := 1)).2 2 (by norm_num)
      (snap_wavefunc (initState 1 2 0 0 0))
      ⟨rfl, by with_unfolding_all decide, by with_unfolding_all decide⟩).2.2
      (by with_unfolding_all decide) (by with_unfolding_all decide) [0]

end TnqvmMPS

namespace TnqvmMPS

/-! ## Claim C9: elapsed-time bookkeeping

The claim fails on `visit(Swap&)`: unlike every other visit, it contains
no `execTime` update at all. -/

/-- C9 counterexample: an adjacent SWAP application (on `|00⟩`, with the
two-qubit gate duration configured to 5) leaves the elapsed-time counter
unchanged, contradicting the claimed increment by the two-qubit
duration. -/
theorem claim_C9_counterexample :
    SwapRel 0 1 wC9In wC9Out ∧
    wC9Out.execTime ≠ wC9In.execTime + wC9In.twoQubitTime := by
  constructor
  · refine SwapRel.adj (by omega) (by omega) ⟨_, leg0, E00, leg0, rfl, ?_, rfl⟩
    with_unfolding_all decide
  · with_unfolding_all decide

/-- C9 amended: every single-qubit gate visit adds the configured
single-qubit duration to the elapsed time, and the tensor update is
independent of the counter's value (bookkeeping only); every CNOT visit
and every Measure visit adds the two-qubit duration; a SWAP visit leaves
the counter unchanged. -/
theorem claim_C9 {D : ℕ} :
    (∀ (G : G2) (q : ℕ) (s s' : MPSState D), visit1Q G q s = .ok s' →
      s'.execTime = s.execTime + s.singleQubitTime ∧
      ∀ t : ℚ, visit1Q G q { s with execTime := t } =
        .ok { s' with execTime := t + s.singleQubitTime }) ∧
    (∀ (i j : ℕ) (s s' : MPSState D), CNOTRel i j s s' →
      s'.execTime = s.execTime + s.twoQubitTime) ∧
    (∀ (i j : ℕ) (s s' : MPSState D), SwapRel i j s s' →
      s'.execTime = s.execTime) ∧
    (∀ (r q : ℕ) (s s' : MPSState D), visit_Measure r q s = .ok s' →
      s'.execTime = s.execTime + s.twoQubitTime) := by
  refine ⟨?_, ?_, ?_, ?_⟩
  · intro G q s s' h
    rw [visit1Q] at h
    simp only [exceptBind_ok] at h
    obtain ⟨A, hA, h⟩ := h
    cases h
    refine ⟨rfl, ?_⟩
    intro t
    rw [visit1Q]
    have : getI ({ s with execTime := t } : MPSState D).legMats (q : ℤ) =
        .ok A := hA
    rw [this, exceptOk_bind]
    rfl
  · intro i j s s' h
    have htime : ∀ {u u' : MPSState D}, sameButChain u u' →
        u'.execTime = u.execTime ∧ u'.twoQubitTime = u.twoQubitTime :=
      fun hsame => ⟨hsame.2.2.2.2.2.2.1, hsame.2.2.2.2.2.2.2.2.1⟩
    cases h with
    | nonadjUp _ hup hcore hdown =>
      have h3 := htime (sameButChain_trans (permUp_sameButChain hup)
        (sameButChain_trans (coreRel_sameButChain hcore)
          (permDown_sameButChain hdown)))
      show _ + _ = _
      rw [h3.1, h3.2]
    | nonadjDown _ hup hcore hdown =>
      have h3 := htime (sameButChain_trans (permUp_sameButChain hup)
        (sameButChain_trans (coreRel_sameButChain hcore)
          (permDown_sameButChain hdown)))
      show _ + _ = _
      rw [h3.1, h3.2]
    | adj _ _ hcore =>
      have h3 := htime (coreRel_sameButChain hcore)
      show _ + _ = _
      rw [h3.1, h3.2]
  · intro i j s s' h
    exact (swapRel_sameButChain h).2.2.2.2.2.2.1
  · intro r q s s' h
    rw [visit_Measure] at h
    simp only [exceptBind_ok] at h
    obtain ⟨ev, _hev, av, _hav, inn, _hinn, A, _hA, h⟩ := h
    by_cases hc : R2.lt (R2.ofRat (measureRv r)) (R2.div av inn)
    · rw [if_pos hc] at h
      cases h
      show (snap_wavefunc s).execTime + (snap_wavefunc s).twoQubitTime = _
      rw [snap_execTime, snap_twoQubitTime]
    · rw [if_neg hc] at h
      cases h
      show (snap_wavefunc s).execTime + (snap_wavefunc s).twoQubitTime = _
      rw [snap_execTime, snap_twoQubitTime]

/-- The C9 amended theorem instantiated on concrete Hadamard, CNOT, SWAP
and Measure applications. -/
theorem claim_C9_witness :
    (okOr (initState 1 1 3 5 0) (visit_Hadamard 0 (initState 1 1 3 5 0))).execTime =
      (initState 1 1 3 5 0).execTime + (initState 1 1 3 5 0).singleQubitTime ∧
    wC9CnotOut.execTime = wC9In.execTime + wC9In.twoQubitTime ∧
    wC9Out.execTime = wC9In.execTime ∧
    wC9Meas.execTime = wC9In.execTime + wC9In.twoQubitTime := by
  refine ⟨((claim_C9 (D := 1)).1 gateH 0 _ _ (by with_unfolding_all decide)).1,
    (claim_C9 (D := 1)).2.1 0 1 _ _ ?_,
    (claim_C9 (D := 1)).2.2.1 0 1 _ _ ?_,
    (claim_C9 (D := 1)).2.2.2 0 0 _ _ (by with_unfolding_all decide)⟩
  · refine CNOTRel.adj (by omega) (by omega) ⟨_, leg0, E00, leg0, rfl, ?_, rfl⟩
    with_unfolding_all decide
  · refine SwapRel.adj (by omega) (by omega) ⟨_, leg0, E00, leg0, rfl, ?_, rfl⟩
    with_unfolding_all decide

end TnqvmMPS

namespace TnqvmMPS

/-! ## The adjacent-transposition calculus

Adjacent SWAP cores act on the physical slots as adjacent
transpositions; a swap network is a palindrome of such transpositions,
so running it twice is the identity permutation. -/

theorem swapIdx_length (m : ℕ) (bs : List (Fin 2)) :
    (swapIdx m bs).length = bs.length := by
  unfold swapIdx; split <;> simp

theorem compPos_length (ps : List ℕ) (bs : List (Fin 2)) :
    (compPos ps bs).length = bs.length := by
  induction ps with
  | nil => rfl
  | cons p ps ih => simp [compPos, swapIdx_length, ih]

theorem swapIdx_getElem? (m : ℕ) (bs : List (Fin 2)) (h : m + 1 < bs.length)
    (j : ℕ) :
    (swapIdx m bs)[j]? =
      if j = m then bs[m + 1]? else if j = m + 1 then bs[m]? else bs[j]? := by
  unfold swapIdx
  rw [if_pos h]
  by_cases hj1 : j = m
  · subst hj1
    rw [if_pos rfl, List.getElem?_set_ne (by omega),
      List.getElem?_set_self (by omega), List.getD_eq_getElem?_getD,
      List.getElem?_eq_getElem (show j + 1 < bs.length by omega)]
    simp
  · by_cases hj2 : j = m + 1
    · subst hj2
      rw [if_neg hj1, if_pos rfl,
        List.getElem?_set_self (by simpa using h), List.getD_eq_getElem?_getD,
        List.getElem?_eq_getElem (show m < bs.length by omega)]
      simp
    · rw [if_neg hj1, if_neg hj2, List.getElem?_set_ne (by omega),
        List.getElem?_set_ne (by omega)]

theorem swapIdx_swapIdx (m : ℕ) (bs : List (Fin 2)) :
    swapIdx m (swapIdx m bs) = bs := by
  by_cases h : m + 1 < bs.length
  · apply List.ext_getElem?
    intro j
    rw [swapIdx_getElem? m _ (by rw [swapIdx_length]; exact h) j]
    simp only [swapIdx_getElem? m bs h]
    split_ifs with h1 h2 <;> simp_all
  · unfold swapIdx
    rw [if_neg h, if_neg h]

theorem compPos_append (ps qs : List ℕ) (bs : List (Fin 2)) :
    compPos (ps ++ qs) bs = compPos ps (compPos qs bs) := by
  induction ps with
  | nil => rfl
  | cons p t ih => simp [compPos, ih]

theorem compPos_palindrome_cancel :
    ∀ (ps : List ℕ) (bs : List (Fin 2)), compPos (ps ++ ps.reverse) bs = bs := by
  intro ps
  induction ps with
  | nil => intro bs; rfl
  | cons p t ih =>
    intro bs
    rw [List.reverse_cons, show (p :: t) ++ (t.reverse ++ [p]) =
      p :: ((t ++ t.reverse) ++ [p]) by simp, compPos,
      compPos_append, ih]
    show swapIdx p (swapIdx p (compPos [] bs)) = bs
    exact swapIdx_swapIdx p bs

end TnqvmMPS

namespace TnqvmMPS

/-! ## Chain-contraction surgery

Replacing an adjacent `(leg, bond, leg)` triple of the chain by an exact
decomposition of the gate-merged tensor acts on the full chain
contraction by the gate coefficients — the locality of a two-qubit
update. -/

theorem chainAmp_cons {D : ℕ} (A0 : Leg D) (legs : List (Leg D)) (B0 : Mat D)
    (bonds : List (Mat D)) (b0 : Fin 2) (bits : List (Fin 2))
    (h : legs ≠ []) :
    chainAmp (A0 :: legs) (B0 :: bonds) (b0 :: bits) =
      A0 b0 * B0 * chainAmp legs bonds bits := by
  cases legs with
  | nil => exact absurd rfl h
  | cons A1 legs' =>
    cases bits with
    | nil => rfl
    | cons b1 bits' => rfl

theorem chainAmp_surgery {D : ℕ} (g : G4) :
    ∀ (m : ℕ) (legs : List (Leg D)) (bonds : List (Mat D))
      (bits : List (Fin 2)) (L Rg : Leg D) (Bd : Mat D) (Amin Amax : Leg D)
      (B : Mat D),
      bonds.length + 1 = legs.length → bits.length = legs.length →
      m + 1 < legs.length →
      legs[m]? = some Amin → legs[m + 1]? = some Amax → bonds[m]? = some B →
      (∀ a b : Fin 2, L a * Bd * Rg b =
        ∑ i0 : Fin 2, ∑ i1 : Fin 2, g a b i0 i1 • (Amin i0 * B * Amax i1)) →
      chainAmp ((legs.set m L).set (m + 1) Rg) (bonds.set m Bd) bits =
        ∑ i0 : Fin 2, ∑ i1 : Fin 2,
          g (bits.getD m 0) (bits.getD (m + 1) 0) i0 i1 •
            chainAmp legs bonds ((bits.set m i0).set (m + 1) i1) := by
  intro m
  induction m with
  | zero =>
    intro legs bonds bits L Rg Bd Amin Amax B hlen1 hlen2 hm hgm hgm1 hgb hrec
    match legs, bonds, bits, hlen1, hlen2, hm, hgm, hgm1, hgb with
    | A0 :: A1 :: legs', B0 :: bonds', b0 :: b1 :: bits', hlen1, hlen2, hm,
        hgm, hgm1, hgb =>
    have hA0 : A0 = Amin := by simpa using hgm
    have hA1 : A1 = Amax := by simpa using hgm1
    have hB0 : B0 = B := by simpa using hgb
    rw [hA0, hA1, hB0]
    cases legs' with
    | nil =>
      cases bonds' with
      | cons Bx bondsx => simp at hlen1
      | nil =>
        cases bits' with
        | cons bx bitsx => simp at hlen2
        | nil =>
          rw [show ((Amin :: Amax :: []).set 0 L).set 1 Rg = [L, Rg] from rfl,
            show (B :: ([] : List (Mat D))).set 0 Bd = [Bd] from rfl,
            show chainAmp [L, Rg] [Bd] [b0, b1] =
              L b0 * Bd * chainAmp [Rg] ([] : List (Mat D)) [b1] from rfl,
            show chainAmp [Rg] ([] : List (Mat D)) [b1] = Rg b1 from rfl,
            hrec b0 b1]
          rfl
    | cons A2 legs'' =>
      cases bonds' with
      | nil => simp at hlen1
      | cons B1 bonds'' =>
        cases bits' with
        | nil => simp at hlen2
        | cons b2 bits'' =>
          rw [show ((Amin :: Amax :: A2 :: legs'').set 0 L).set 1 Rg =
            L :: Rg :: A2 :: legs'' from rfl,
            show (B :: B1 :: bonds'').set 0 Bd = Bd :: B1 :: bonds'' from rfl]
          have hL : chainAmp (L :: Rg :: A2 :: legs'') (Bd :: B1 :: bonds'')
              (b0 :: b1 :: b2 :: bits'') =
              L b0 * Bd *
                (Rg b1 * B1 * chainAmp (A2 :: legs'') bonds'' (b2 :: bits'')) :=
            rfl
          rw [hL]
          have key : ∀ i0 i1 : Fin 2,
              chainAmp (Amin :: Amax :: A2 :: legs'') (B :: B1 :: bonds'')
                (((b0 :: b1 :: b2 :: bits'').set 0 i0).set 1 i1) =
              Amin i0 * B *
                (Amax i1 * B1 * chainAmp (A2 :: legs'') bonds'' (b2 :: bits'')) :=
            fun i0 i1 => rfl
          simp only [key]
          have h1 : L b0 * Bd *
              (Rg b1 * B1 * chainAmp (A2 :: legs'') bonds'' (b2 :: bits'')) =
              (L b0 * Bd * Rg b1) *
                (B1 * chainAmp (A2 :: legs'') bonds'' (b2 :: bits'')) := by
            rw [mul_assoc (Rg b1) B1 (chainAmp (A2 :: legs'') bonds'' (b2 :: bits'')),
              mul_assoc (L b0 * Bd) (Rg b1)
                (B1 * chainAmp (A2 :: legs'') bonds'' (b2 :: bits''))]
          rw [h1, hrec b0 b1, Finset.sum_mul]
          refine Finset.sum_congr rfl ?_
          intro i0 _
          rw [Finset.sum_mul]
          refine Finset.sum_congr rfl ?_
          intro i1 _
          rw [Matrix.smul_mul]
          refine congrArg (fun X => g b0 b1 i0 i1 • X) ?_
          rw [mul_assoc (Amin i0 * B) (Amax i1)
              (B1 * chainAmp (A2 :: legs'') bonds'' (b2 :: bits'')),
            mul_assoc (Amax i1) B1
              (chainAmp (A2 :: legs'') bonds'' (b2 :: bits''))]
  | succ k ih =>
    intro legs bonds bits L Rg Bd Amin Amax B hlen1 hlen2 hm hgm hgm1 hgb hrec
    match legs, bonds, bits, hlen1, hlen2, hm, hgm, hgm1, hgb with
    | A0 :: legs', B0 :: bonds', b0 :: bits', hlen1, hlen2, hm, hgm, hgm1,
        hgb =>
    have hlegs' : k + 1 < legs'.length := by
      have : k + 1 + 1 < legs'.length + 1 := by simpa using hm
      omega
    have hlen1' : bonds'.length + 1 = legs'.length := by simpa using hlen1
    have hlen2' : bits'.length = legs'.length := by simpa using hlen2
    have hne : (legs'.set k L).set (k + 1) Rg ≠ [] := by
      have hlen : ((legs'.set k L).set (k + 1) Rg).length = legs'.length := by
        simp
      intro hc
      rw [hc] at hlen
      simp at hlen
      omega
    have hne2 : legs' ≠ [] := by
      intro hc
      rw [hc] at hlegs'
      simp at hlegs'
    rw [show ((A0 :: legs').set (k + 1) L).set (k + 2) Rg =
      A0 :: ((legs'.set k L).set (k + 1) Rg) from rfl,
      show (B0 :: bonds').set (k + 1) Bd = B0 :: bonds'.set k Bd from rfl,
      chainAmp_cons _ _ _ _ _ _ hne,
      ih legs' bonds' bits' L Rg Bd Amin Amax B hlen1' hlen2' hlegs'
        (by simpa using hgm) (by simpa using hgm1) (by simpa using hgb) hrec,
      Finset.mul_sum]
    refine Finset.sum_congr rfl ?_
    intro i0 _
    rw [Finset.mul_sum]
    refine Finset.sum_congr rfl ?_
    intro i1 _
    rw [Matrix.mul_smul]
    have hbitsform : ((b0 :: bits').set (k + 1) i0).set (k + 2) i1 =
        b0 :: ((bits'.set k i0).set (k + 1) i1) := rfl
    rw [hbitsform, chainAmp_cons _ _ _ _ _ _ hne2]
    have hgd1 : (b0 :: bits').getD (k + 1) 0 = bits'.getD k 0 := rfl
    have hgd2 : (b0 :: bits').getD (k + 2) 0 = bits'.getD (k + 1) 0 := rfl
    rw [hgd1, hgd2]

end TnqvmMPS

namespace TnqvmMPS

theorem getI_nat_ok {α : Type _} {l : List α} {i : ℕ} {a : α}
    (h : getI l (i : ℤ) = .ok a) : l[i]? = some a := by
  rw [getI_ok_iff] at h
  obtain ⟨hb, heq⟩ := h
  have hlt : i < l.length := by omega
  simp only [Int.toNat_ofNat] at heq
  rw [List.getElem?_eq_getElem hlt, ← heq]
  rfl

/-- Contracting the SWAP gate tensor against a family exchanges the two
physical indices. -/
theorem gateSWAP_sum {D : ℕ} (X : Fin 2 → Fin 2 → Mat D) (a b : Fin 2) :
    (∑ i0 : Fin 2, ∑ i1 : Fin 2, gateSWAP a b i0 i1 • X i0 i1) = X b a := by
  fin_cases a <;> fin_cases b <;>
    simp [gateSWAP, Fin.sum_univ_two]

/-- An adjacent SWAP core transposes the two physical slots in the chain
contraction. -/
theorem coreRel_swap_amp {D n q0 q1 : ℕ} {s s' : MPSState D}
    (hadj : q1 = q0 + 1 ∨ q0 = q1 + 1) (hwf : WFChain n s)
    (hmax : max q0 q1 < n) (hrel : coreRel gateSWAP q0 q1 s s') :
    WFChain n s' ∧
    ∀ bits : List (Fin 2), bits.length = n →
      chainAmp s'.legMats s'.bondMats bits =
        chainAmp s.legMats s.bondMats (swapIdx (min q0 q1) bits) := by
  obtain ⟨M, L, Bd, Rg, hM, hrec, hins⟩ := hrel
  obtain ⟨hnq, hL, hB⟩ := hwf
  have hmx : max q0 q1 = min q0 q1 + 1 := by omega
  subst hins
  constructor
  · exact ⟨hnq, by simp [installCore, hL], by simp [installCore, hB]⟩
  · intro bits hbits
    rw [mergedTensor] at hM
    simp only [exceptBind_ok] at hM
    obtain ⟨Amin, hAmin, B, hBm, Amax, hAmax, hM⟩ := hM
    have hMfun := Except.ok.inj hM
    have hrec2 : ∀ a b : Fin 2, L a * Bd * Rg b =
        ∑ i0 : Fin 2, ∑ i1 : Fin 2,
          gateSWAP a b i0 i1 • (Amin i0 * B * Amax i1) := by
      intro a b
      rw [hrec a b, ← hMfun]
      rcases hadj with h | h
      · have hq : q0 ≤ q1 := by omega
        simp only [hq, if_true]
      · have hq : ¬ q0 ≤ q1 := by omega
        simp only [hq, if_false]
        rw [gateSWAP_sum (fun i0 i1 => Amin i1 * B * Amax i0) b a,
          gateSWAP_sum (fun i0 i1 => Amin i0 * B * Amax i1) a b]
    have hml : min q0 q1 + 1 < s.legMats.length := by omega
    have hAmin' : getI s.legMats ((min q0 q1 : ℕ) : ℤ) = .ok Amin := by
      rw [Nat.cast_min]; exact hAmin
    have hAmax' : getI s.legMats ((max q0 q1 : ℕ) : ℤ) = .ok Amax := by
      rw [Nat.cast_max]; exact hAmax
    have hBm' : getI s.bondMats ((min q0 q1 : ℕ) : ℤ) = .ok B := by
      rw [Nat.cast_min]; exact hBm
    have hsurg := chainAmp_surgery gateSWAP (min q0 q1) s.legMats s.bondMats
      bits L Rg Bd Amin Amax B (by omega) (by omega) hml
      (getI_nat_ok hAmin') (by rw [← hmx]; exact getI_nat_ok hAmax')
      (getI_nat_ok hBm') hrec2
    show chainAmp ((s.legMats.set (min q0 q1) L).set (max q0 q1) Rg)
      (s.bondMats.set (min q0 q1) Bd) bits = _
    rw [hmx, hsurg,
      gateSWAP_sum (fun i0 i1 => chainAmp s.legMats s.bondMats
        ((bits.set (min q0 q1) i0).set (min q0 q1 + 1) i1)) _ _]
    unfold swapIdx
    rw [if_pos (by omega)]

end TnqvmMPS

namespace TnqvmMPS

theorem permUp_amp {D n : ℕ} {a b : ℕ} {s s' : MPSState D}
    (h : PermUp a b s s') : b < n → WFChain n s →
    WFChain n s' ∧ ∀ bits : List (Fin 2), bits.length = n →
      chainAmp s'.legMats s'.bondMats bits =
        chainAmp s.legMats s.bondMats
          (compPos (List.range' a (b - a)) bits) := by
  induction h with
  | done q s =>
    intro _ hwf
    exact ⟨hwf, fun bits _ => by simp [compPos]⟩
  | step hab hcore hup ih =>
    rename_i a2 b2 t t1 t2
    intro hb hwf
    obtain ⟨hwf1, hamp1⟩ := coreRel_swap_amp (Or.inl rfl) hwf
      (by omega) hcore
    obtain ⟨hwf2, hamp2⟩ := ih hb hwf1
    refine ⟨hwf2, fun bits hlen => ?_⟩
    rw [hamp2 bits hlen, hamp1 _ (by rw [compPos_length]; exact hlen)]
    have h1 : min a2 (a2 + 1) = a2 := by omega
    have h2 : List.range' a2 (b2 - a2) =
        a2 :: List.range' (a2 + 1) (b2 - (a2 + 1)) := by
      have h3 : b2 - a2 = (b2 - (a2 + 1)) + 1 := by omega
      rw [h3, List.range'_succ]
    rw [h1, h2]
    rfl

theorem permDown_amp {D n : ℕ} {a b : ℕ} {s s' : MPSState D}
    (h : PermDown a b s s') : a < n → WFChain n s →
    WFChain n s' ∧ ∀ bits : List (Fin 2), bits.length = n →
      chainAmp s'.legMats s'.bondMats bits =
        chainAmp s.legMats s.bondMats
          (compPos (List.range' b (a - b)).reverse bits) := by
  induction h with
  | done q s =>
    intro _ hwf
    exact ⟨hwf, fun bits _ => by simp [compPos]⟩
  | step hba hcore hdown ih =>
    rename_i a2 b2 t t1 t2
    intro ha hwf
    obtain ⟨hwf1, hamp1⟩ := coreRel_swap_amp (Or.inr (by omega)) hwf
      (by omega) hcore
    obtain ⟨hwf2, hamp2⟩ := ih (by omega) hwf1
    refine ⟨hwf2, fun bits hlen => ?_⟩
    rw [hamp2 bits hlen, hamp1 _ (by rw [compPos_length]; exact hlen)]
    have h1 : min a2 (a2 - 1) = a2 - 1 := by omega
    have h2 : List.range' b2 (a2 - b2) =
        List.range' b2 (a2 - 1 - b2) ++ [a2 - 1] := by
      have h3 : a2 - b2 = (a2 - 1 - b2) + 1 := by omega
      rw [h3, List.range'_1_concat]
      have h4 : b2 + (a2 - 1 - b2) = a2 - 1 := by omega
      rw [h4]
    rw [h1, h2, List.reverse_append]
    rfl

theorem swapRel_amp {D n : ℕ} {i j : ℕ} {s s' : MPSState D}
    (h : SwapRel i j s s') (hi : i < n) (hj : j < n) (hij : i ≠ j)
    (hwf : WFChain n s) :
    WFChain n s' ∧ ∀ bits : List (Fin 2), bits.length = n →
      chainAmp s'.legMats s'.bondMats bits =
        chainAmp s.legMats s.bondMats (compPos (swapPosList i j) bits) := by
  cases h with
  | nonadjUp hlt hup hcore hdown =>
    obtain ⟨hwf1, hamp1⟩ := permUp_amp hup (by omega) hwf
    obtain ⟨hwf2, hamp2⟩ := coreRel_swap_amp (Or.inl (by omega)) hwf1
      (by omega) hcore
    obtain ⟨hwf3, hamp3⟩ := permDown_amp hdown (by omega) hwf2
    refine ⟨hwf3, fun bits hlen => ?_⟩
    rw [hamp3 bits hlen, hamp2 _ (by rw [compPos_length]; exact hlen),
      hamp1 _ (by rw [swapIdx_length, compPos_length]; exact hlen)]
    unfold swapPosList
    rw [if_pos hlt, compPos_append, compPos_append]
    have hmin : min (j - 1) j = j - 1 := by omega
    have hd : (j - 1) - i = j - 1 - i := rfl
    rw [hmin]
    rfl
  | nonadjDown hlt hup hcore hdown =>
    obtain ⟨hwf1, hamp1⟩ := permUp_amp hup (by omega) hwf
    obtain ⟨hwf2, hamp2⟩ := coreRel_swap_amp (Or.inr (by omega)) hwf1
      (by omega) hcore
    obtain ⟨hwf3, hamp3⟩ := permDown_amp hdown (by omega) hwf2
    refine ⟨hwf3, fun bits hlen => ?_⟩
    rw [hamp3 bits hlen, hamp2 _ (by rw [compPos_length]; exact hlen),
      hamp1 _ (by rw [swapIdx_length, compPos_length]; exact hlen)]
    unfold swapPosList
    rw [if_neg (by omega), if_pos hlt, compPos_append, compPos_append]
    have hmin : min i (i - 1) = i - 1 := by omega
    rw [hmin]
    rfl
  | adj hn1 hn2 hcore =>
    have hadj : j = i + 1 ∨ i = j + 1 := by omega
    obtain ⟨hwf1, hamp1⟩ := coreRel_swap_amp hadj hwf (by omega) hcore
    refine ⟨hwf1, fun bits hlen => ?_⟩
    rw [hamp1 bits hlen]
    unfold swapPosList
    rw [if_neg (by omega), if_neg (by omega)]
    rfl

theorem swapPosList_reverse (i j : ℕ) :
    (swapPosList i j).reverse = swapPosList i j := by
  unfold swapPosList
  split
  · simp [List.reverse_append, List.append_assoc]
  · split
    · simp [List.reverse_append, List.append_assoc]
    · rfl

/-! ## Claim C6: a SWAP applied twice restores the state -/

/-- C6: for every pair of distinct qubit indices `i`, `j` (adjacent or
not), applying `visit(Swap&)` twice restores the chain contraction at
every physical-basis assignment — the represented MPS state, including
each qubit's physical-slot assignment, is exactly the pre-swap one (the
non-adjacent permute chain is undone by the mirror chain: the realised
transposition word is a palindrome, so its square is the identity) —
and all non-chain state components are unchanged. -/
theorem claim_C6 {D n : ℕ} (i j : ℕ) (s s₁ s₂ : MPSState D)
    (hij : i ≠ j) (hi : i < n) (hj : j < n) (hwf : WFChain n s)
    (h1 : SwapRel i j s s₁) (h2 : SwapRel i j s₁ s₂) :
    (∀ bits : List (Fin 2), bits.length = n →
      chainAmp s₂.legMats s₂.bondMats bits =
        chainAmp s.legMats s.bondMats bits) ∧
    sameButChain s s₂ ∧ WFChain n s₂ := by
  obtain ⟨hwf1, hamp1⟩ := swapRel_amp h1 hi hj hij hwf
  obtain ⟨hwf2, hamp2⟩ := swapRel_amp h2 hi hj hij hwf1
  refine ⟨?_, sameButChain_trans (swapRel_sameButChain h1)
    (swapRel_sameButChain h2), hwf2⟩
  intro bits hlen
  rw [hamp2 bits hlen, hamp1 _ (by rw [compPos_length]; exact hlen),
    ← compPos_append,
    show swapPosList i j ++ swapPosList i j =
      swapPosList i j ++ (swapPosList i j).reverse by
        rw [swapPosList_reverse],
    compPos_palindrome_cancel]

/-- C6 instantiated: the non-adjacent `Swap(0, 2)` applied twice on the
three-qubit `|000⟩` chain (each adjacent core realised by the rank-one
exact triple). -/
theorem claim_C6_witness :
    (∀ bits : List (Fin 2), bits.length = 3 →
      chainAmp sInit3.legMats sInit3.bondMats bits =
        chainAmp sInit3.legMats sInit3.bondMats bits) ∧
    sameButChain sInit3 sInit3 ∧ WFChain 3 sInit3 := by
  have hcore01 : coreRel gateSWAP 0 1 sInit3 sInit3 := by
    refine ⟨_, leg0, E00, leg0, rfl, ?_, ?_⟩
    · with_unfolding_all decide
    · with_unfolding_all decide
  have hcore12 : coreRel gateSWAP 1 2 sInit3 sInit3 := by
    refine ⟨_, leg0, E00, leg0, rfl, ?_, ?_⟩
    · with_unfolding_all decide
    · with_unfolding_all decide
  have hcore10 : coreRel gateSWAP 1 0 sInit3 sInit3 := by
    refine ⟨_, leg0, E00, leg0, rfl, ?_, ?_⟩
    · with_unfolding_all decide
    · with_unfolding_all decide
  have hswap : SwapRel 0 2 sInit3 sInit3 :=
    SwapRel.nonadjUp (by omega)
      (PermUp.step (by omega) hcore01 (PermUp.done 1 sInit3))
      hcore12
      (PermDown.step (by omega) hcore10 (PermDown.done 0 sInit3))
  exact claim_C6 0 2 sInit3 sInit3 sInit3 (by omega) (by omega) (by omega)
    ⟨rfl, rfl, rfl⟩ hswap hswap

end TnqvmMPS

namespace TnqvmMPS

/-! ## Claim C5: the Bell state -/

/-- C5: starting from `|00⟩` on two qubits, applying `Hadamard(0)` and
then `CNOT(0,1)` and extracting the dense state vector through
`getState` (normalisation by any norm value `nrm` with `nrm² = ⟨ψ|ψ⟩`,
`nrm ≥ 0`, noise snapping, enumeration and vector reversal) yields
exactly `[1/√2, 0, 0, 1/√2]` — in particular within `1e-6`. -/
theorem claim_C5 (s₁ s₂ : MPSState 2) (nrm : R2)
    (h1 : visit_Hadamard 0 (initState 2 2 0 0 0) = .ok s₁)
    (h2 : CNOTRel 0 1 s₁ s₂)
    (hnrm : nrm * nrm = stateNormSq s₂) (hpos : R2.nonneg nrm) :
    getState nrm s₂ = [Kc.halfSqrt2, 0, 0, Kc.halfSqrt2] := by
  have hok : visit_Hadamard 0 (initState 2 2 0 0 0) = .ok wC5H := by
    with_unfolding_all decide
  rw [h1] at hok
  have hs₁ : s₁ = wC5H := Except.ok.inj hok
  subst hs₁
  cases h2 with
  | nonadjUp hlt _ _ _ => exact absurd hlt (by omega)
  | nonadjDown hlt _ _ _ => exact absurd hlt (by omega)
  | adj hn1 hn2 hcore =>
    rename_i s₂'
    obtain ⟨M, L, Bd, Rg, hM, hrec, hins⟩ := hcore
    subst hins
    have hM0 : mergedTensor gateCNOT 0 1 wC5H = .ok wC5M := rfl
    rw [hM0] at hM
    have hMeq : wC5M = M := Except.ok.inj hM
    subst hMeq
    have hv00 : entry00 (wC5M 0 0) = Kc.halfSqrt2 := by with_unfolding_all decide
    have hv11 : entry00 (wC5M 1 1) = Kc.halfSqrt2 := by with_unfolding_all decide
    have hv10 : entry00 (wC5M 1 0) = 0 := by with_unfolding_all decide
    have hv01 : entry00 (wC5M 0 1) = 0 := by with_unfolding_all decide
    have ha0 : ampAt (bump2 (installCore 0 1 L Bd Rg wC5H)) 0 =
        entry00 (L 0 * Bd * Rg 0) := rfl
    have ha1 : ampAt (bump2 (installCore 0 1 L Bd Rg wC5H)) 1 =
        entry00 (L 1 * Bd * Rg 0) := rfl
    have ha2 : ampAt (bump2 (installCore 0 1 L Bd Rg wC5H)) 2 =
        entry00 (L 0 * Bd * Rg 1) := rfl
    have ha3 : ampAt (bump2 (installCore 0 1 L Bd Rg wC5H)) 3 =
        entry00 (L 1 * Bd * Rg 1) := rfl
    have ha0' : ampAt (bump2 (installCore 0 1 L Bd Rg wC5H)) 0 = Kc.halfSqrt2 := by
      rw [ha0, hrec 0 0, hv00]
    have ha1' : ampAt (bump2 (installCore 0 1 L Bd Rg wC5H)) 1 = 0 := by
      rw [ha1, hrec 1 0, hv10]
    have ha2' : ampAt (bump2 (installCore 0 1 L Bd Rg wC5H)) 2 = 0 := by
      rw [ha2, hrec 0 1, hv01]
    have ha3' : ampAt (bump2 (installCore 0 1 L Bd Rg wC5H)) 3 = Kc.halfSqrt2 := by
      rw [ha3, hrec 1 1, hv11]
    have hns : stateNormSq (bump2 (installCore 0 1 L Bd Rg wC5H)) = 1 := by
      show (∑ idx ∈ Finset.range (2 ^ 2),
        Kc.normSq (ampAt (bump2 (installCore 0 1 L Bd Rg wC5H)) idx)) = 1
      rw [show (2 ^ 2 : ℕ) = 4 from rfl, Finset.sum_range_succ,
        Finset.sum_range_succ, Finset.sum_range_succ, Finset.sum_range_one,
        ha0', ha1', ha2', ha3']
      with_unfolding_all decide
    rw [hns] at hnrm
    have hnrm1 : nrm = 1 := R2.eq_one_of_mul_self hnrm hpos
    subst hnrm1
    show (List.map (fun idx => snapZero (Kc.divR
      (ampAt (bump2 (installCore 0 1 L Bd Rg wC5H)) idx) 1)) [0, 1, 2, 3]).reverse = _
    simp only [List.map_cons, List.map_nil]
    rw [ha0', ha1', ha2', ha3', Kc.divR_one,
      show snapZero Kc.halfSqrt2 = Kc.halfSqrt2 by with_unfolding_all decide,
      show snapZero (Kc.divR 0 1) = 0 by with_unfolding_all decide]
    rfl

/-- C5 instantiated: the explicit exact SVD triple
`(wC5L, wC5Bd, wC5R)` for the Bell merged tensor, with norm value 1. -/
theorem claim_C5_witness :
    visit_Hadamard 0 (initState 2 2 0 0 0) = .ok wC5H ∧
    CNOTRel 0 1 wC5H wC5Out ∧
    (1 : R2) * 1 = stateNormSq wC5Out ∧ R2.nonneg 1 ∧
    getState 1 wC5Out = [Kc.halfSqrt2, 0, 0, Kc.halfSqrt2] := by
  have hH : visit_Hadamard 0 (initState 2 2 0 0 0) = .ok wC5H := by
    with_unfolding_all decide
  have hrel : CNOTRel 0 1 wC5H wC5Out := by
    refine CNOTRel.adj (by omega) (by omega)
      ⟨_, wC5L, wC5Bd, wC5R, rfl, ?_, rfl⟩
    with_unfolding_all decide
  have hns : (1 : R2) * 1 = stateNormSq wC5Out := by
    with_unfolding_all decide
  exact ⟨hH, hrel, hns, by with_unfolding_all decide,
    claim_C5 wC5H wC5Out 1 hH hrel hns (by with_unfolding_all decide)⟩

end TnqvmMPS
